import Mathlib

/-!
Verification of the scheduling simulator (`static/js/app.js`).

This file gives a shallow embedding of the CPU-scheduling engine of the
repository — `fcfsScheduling`, `sjfScheduling`, `roundRobinScheduling`,
`priorityScheduling`, `calculateStatistics` and `simulateScheduling` — and
proves properties of those functions.  JavaScript numbers are modelled as
`ℤ` (all inputs are produced by `parseInt`); statistics, where JavaScript
division and `Math.max` can produce `Infinity`/`NaN`, are modelled by the
type `JsNum` below.  The `while` loops of SJF / priority / round-robin are
modelled with an explicit fuel parameter: a result `none` means the loop
was still running when the fuel ran out, and termination statements are
phrased as the existence of sufficient fuel.

JavaScript object identity (`completed.includes(p)`, `queue.includes(p)`)
is modelled by indexing: the simulated processes live in a list and the
`completed` / `queue` collections hold indices into that list.
-/

set_option linter.unusedVariables false

/-- A CPU process record, as built by `simulateScheduling` /
`roundRobinScheduling`: input fields plus the mutable scratch fields that
the schedulers fill in (`undefined` before being set, hence `Option`). -/
structure Process where
  pid : ℤ
  arrival_time : ℤ
  burst_time : ℤ
  priority : ℤ
  remaining_time : ℤ
  completion_time : Option ℤ
  turnaround_time : Option ℤ
  waiting_time : Option ℤ
deriving Repr, DecidableEq

/-- One Gantt-chart entry pushed onto `timeline`. -/
structure Segment where
  pid : ℤ
  start : ℤ
  «end» : ℤ
  duration : ℤ
deriving Repr, DecidableEq

/-- A JavaScript number as far as the statistics code can observe it:
an exact rational, `Infinity`, `-Infinity`, or `NaN`. -/
inductive JsNum where
  | num (q : ℚ)
  | inf
  | negInf
  | nan
deriving Repr, DecidableEq

/-- Reading a possibly-undefined (`Option`) field as a JS number:
`undefined` used in arithmetic is `NaN`. -/
def jsOfOpt : Option ℤ → JsNum
  | some z => .num z
  | none => .nan

/-- JavaScript `+` on numbers. -/
def jsAdd : JsNum → JsNum → JsNum
  | .nan, _ => .nan
  | _, .nan => .nan
  | .inf, .negInf => .nan
  | .negInf, .inf => .nan
  | .inf, _ => .inf
  | _, .inf => .inf
  | .negInf, _ => .negInf
  | _, .negInf => .negInf
  | .num a, .num b => .num (a + b)

/-- JavaScript `Math.max` on two numbers (`NaN` propagates). -/
def jsMax : JsNum → JsNum → JsNum
  | .nan, _ => .nan
  | _, .nan => .nan
  | .inf, _ => .inf
  | _, .inf => .inf
  | .negInf, x => x
  | x, .negInf => x
  | .num a, .num b => .num (max a b)

/-- JavaScript `/` on numbers; in particular `a / 0` is `Infinity` for
`a > 0`, `-Infinity` for `a < 0` and `NaN` for `a = 0`. -/
def jsDiv : JsNum → JsNum → JsNum
  | .nan, _ => .nan
  | _, .nan => .nan
  | .inf, .inf => .nan
  | .inf, .negInf => .nan
  | .negInf, .inf => .nan
  | .negInf, .negInf => .nan
  | .inf, .num b => if b < 0 then .negInf else .inf
  | .negInf, .num b => if b < 0 then .inf else .negInf
  | .num _, .inf => .num 0
  | .num _, .negInf => .num 0
  | .num a, .num b =>
      if b = 0 then (if a = 0 then .nan else if 0 < a then .inf else .negInf)
      else .num (a / b)

/-- The statistics record returned by `calculateStatistics`.  The source
renders the averages and the throughput through `.toFixed(2)` (decimal
formatting for display, which maps `Infinity` to the string `"Infinity"`);
the numeric values being formatted are modelled here. -/
structure Statistics where
  avg_turnaround_time : JsNum
  avg_waiting_time : JsNum
  avg_response_time : JsNum
  total_time : JsNum
  throughput : JsNum
deriving Repr, DecidableEq

/--
```js
function calculateStatistics(processes) {
    if (processes.length === 0) return {};
    const totalTurnaround = processes.reduce((sum, p) => sum + p.turnaround_time, 0);
    const totalWaiting = processes.reduce((sum, p) => sum + p.waiting_time, 0);
    const totalTime = Math.max(...processes.map(p => p.completion_time));
    return { avg_turnaround_time, avg_waiting_time,
             avg_response_time /- simplified: = avg waiting -/,
             total_time, throughput };
}
```
The empty-input `{}` is modelled as `none`. -/
def calculateStatistics (processes : List Process) : Option Statistics :=
  if processes = [] then none
  else
    let totalTurnaround :=
      processes.foldl (fun s p => jsAdd s (jsOfOpt p.turnaround_time)) (.num 0)
    let totalWaiting :=
      processes.foldl (fun s p => jsAdd s (jsOfOpt p.waiting_time)) (.num 0)
    let totalTime :=
      processes.foldl (fun m p => jsMax m (jsOfOpt p.completion_time)) .negInf
    some
      { avg_turnaround_time := jsDiv totalTurnaround (.num processes.length)
        avg_waiting_time := jsDiv totalWaiting (.num processes.length)
        avg_response_time := jsDiv totalWaiting (.num processes.length)
        total_time := totalTime
        throughput := jsDiv (.num processes.length) totalTime }

/-- What each scheduler returns: the `timeline`, the process records it
passed to `calculateStatistics` (with their completion fields filled in),
and the statistics. -/
structure SchedResult where
  timeline : List Segment
  completed : List Process
  statistics : Option Statistics
deriving Repr, DecidableEq

/-! ## FCFS -/

/-- The comparator of
`[...processes].sort((a, b) => a.arrival_time - b.arrival_time || a.pid - b.pid)`
as the total preorder it induces: `a` may precede `b` iff
`(a.arrival_time, a.pid) ≤ (b.arrival_time, b.pid)` lexicographically. -/
def fcfsRel (a b : Process) : Prop :=
  a.arrival_time < b.arrival_time ∨
    (a.arrival_time = b.arrival_time ∧ a.pid ≤ b.pid)

instance : DecidableRel fcfsRel := fun a b => by
  unfold fcfsRel; infer_instance

instance : IsTotal Process fcfsRel :=
  ⟨fun a b => by
    unfold fcfsRel
    rcases lt_trichotomy a.arrival_time b.arrival_time with h | h | h
    · exact Or.inl (Or.inl h)
    · rcases le_total a.pid b.pid with hp | hp
      · exact Or.inl (Or.inr ⟨h, hp⟩)
      · exact Or.inr (Or.inr ⟨h.symm, hp⟩)
    · exact Or.inr (Or.inl h)⟩

instance : IsTrans Process fcfsRel :=
  ⟨fun a b c hab hbc => by
    unfold fcfsRel at *
    rcases hab with h1 | ⟨h1, p1⟩ <;> rcases hbc with h2 | ⟨h2, p2⟩
    · exact Or.inl (h1.trans h2)
    · exact Or.inl (h2 ▸ h1)
    · exact Or.inl (h1 ▸ h2)
    · exact Or.inr ⟨h1.trans h2, p1.trans p2⟩⟩

/-- JavaScript `Array.prototype.sort` is a stable sort, and with the total
preorder comparator above its result is the unique stable sort of the
input, which is exactly `List.insertionSort fcfsRel`. -/
def fcfsSort (processes : List Process) : List Process :=
  List.insertionSort fcfsRel processes

/-- The body of FCFS's `for (const process of sortedProcesses)` loop,
threading `currentTime`:
`if (currentTime < arrival) currentTime = arrival` (i.e. `max`), push one
segment of length `burst_time`, then set the completion fields. -/
def fcfsGo (t : ℤ) : List Process → List Segment × List Process
  | [] => ([], [])
  | p :: rest =>
      let start := max t p.arrival_time
      let fin := start + p.burst_time
      let done : Process :=
        { p with
            completion_time := some fin
            turnaround_time := some (fin - p.arrival_time)
            waiting_time := some (fin - p.arrival_time - p.burst_time) }
      let r := fcfsGo fin rest
      (⟨p.pid, start, fin, p.burst_time⟩ :: r.1, done :: r.2)

/-- `fcfsScheduling(processes)` from the source. -/
def fcfsScheduling (processes : List Process) : SchedResult :=
  let sortedProcesses := fcfsSort processes
  let r := fcfsGo 0 sortedProcesses
  ⟨r.1, r.2, calculateStatistics r.2⟩

/-! ## SJF and priority scheduling (shared loop shape) -/

/-- Placeholder used by the total indexing function `procAt`; the
schedulers only ever index in bounds. -/
def defaultProcess : Process := ⟨0, 0, 0, 0, 0, none, none, none⟩

/-- Total indexing into the simulated process array. -/
def procAt (ps : List Process) (i : ℕ) : Process := ps.getD i defaultProcess

/-- State of the SJF / priority `while` loop: the process array
(`processesCopy`), the indices already pushed onto `completed` (in
completion order), `currentTime`, and the `timeline`. -/
structure SchedState where
  procs : List Process
  completed : List ℕ
  time : ℤ
  timeline : List Segment
deriving Repr, DecidableEq

/-- `processesCopy.filter(p => p.arrival_time <= currentTime && !completed.includes(p))`,
as the list of indices (in input order). -/
def availableIdx (s : SchedState) : List ℕ :=
  (List.range s.procs.length).filter fun i =>
    decide ((procAt s.procs i).arrival_time ≤ s.time) && !(s.completed.contains i)

/-- `available.reduce((best, current) => key(current) < key(best) ? current : best)`:
the JavaScript `reduce` without an initial value, i.e. a left fold started
from the first element.  The strict `<` keeps the incumbent on ties, so the
result is the first element of the list attaining the minimum key. -/
def reduceFirstMin (key : Process → ℤ) (ps : List Process) (hd : ℕ) (tl : List ℕ) : ℕ :=
  tl.foldl (fun best cur =>
    if key (procAt ps cur) < key (procAt ps best) then cur else best) hd

/-- The not-yet-completed indices, in input order. -/
def pendingIdx (s : SchedState) : List ℕ :=
  (List.range s.procs.length).filter fun i => !(s.completed.contains i)

/-- The idle-time jump target:
`Math.min(...processesCopy.filter(p => !completed.includes(p)).map(p => p.arrival_time))`.
On an empty pending set JavaScript would set `currentTime = Infinity`; that
situation is unreachable under the loop condition and is modelled by
leaving the time unchanged. -/
def jumpTime (s : SchedState) : ℤ :=
  match (pendingIdx s).map (fun i => (procAt s.procs i).arrival_time) with
  | [] => s.time
  | a :: rest => rest.foldl min a

/-- One iteration of the SJF / priority `while` loop (`key` is
`burst_time` for SJF and `priority` for priority scheduling). -/
def schedStep (key : Process → ℤ) (s : SchedState) : SchedState :=
  match availableIdx s with
  | [] => { s with time := jumpTime s }
  | i :: rest =>
      let sel := reduceFirstMin key s.procs i rest
      let p := procAt s.procs sel
      let fin := s.time + p.burst_time
      let done : Process :=
        { p with
            completion_time := some fin
            turnaround_time := some (fin - p.arrival_time)
            waiting_time := some (fin - p.arrival_time - p.burst_time) }
      { procs := s.procs.set sel done
        completed := s.completed ++ [sel]
        time := fin
        timeline := s.timeline ++ [⟨p.pid, s.time, fin, p.burst_time⟩] }

/-- `while (completed.length < processesCopy.length) { ... }`, with fuel. -/
def schedRun (key : Process → ℤ) : ℕ → SchedState → Option SchedState
  | 0, s => if s.completed.length < s.procs.length then none else some s
  | f + 1, s =>
      if s.completed.length < s.procs.length then schedRun key f (schedStep key s)
      else some s

/-- Initial loop state; `processes.map(p => ({ ...p }))` copies each record
unchanged (value copy of all fields). -/
def initSchedState (processes : List Process) : SchedState :=
  ⟨processes, [], 0, []⟩

/-- The completed-process list in completion order (the JS `completed`
array holds the mutated objects, i.e. the final records at those indices). -/
def schedCompleted (s : SchedState) : List Process :=
  s.completed.map (procAt s.procs)

/-- `sjfScheduling(processes)` from the source, with fuel for the loop. -/
def sjfScheduling (fuel : ℕ) (processes : List Process) : Option SchedResult :=
  (schedRun (fun p => p.burst_time) fuel (initSchedState processes)).map fun s =>
    ⟨s.timeline, schedCompleted s, calculateStatistics (schedCompleted s)⟩

/-- `priorityScheduling(processes)` from the source, with fuel. -/
def priorityScheduling (fuel : ℕ) (processes : List Process) : Option SchedResult :=
  (schedRun (fun p => p.priority) fuel (initSchedState processes)).map fun s =>
    ⟨s.timeline, schedCompleted s, calculateStatistics (schedCompleted s)⟩

/-! ## Round robin -/

/-- State of the round-robin `while` loop; `queue` holds indices into
`procs` (JS holds the object references). -/
structure RRState where
  procs : List Process
  queue : List ℕ
  time : ℤ
  timeline : List Segment
deriving Repr, DecidableEq

/-- The enqueue pass at the top of each round-robin iteration:
`processesCopy.filter(p => p.arrival_time <= currentTime && p.remaining_time > 0 && !queue.includes(p)).forEach(p => { if (!queue.includes(p)) queue.push(p); })`.
The filtered indices are distinct, so checking against the original queue
is the same as checking against the growing one. -/
def rrEnqueue (s : RRState) : RRState :=
  { s with
      queue := s.queue ++ (List.range s.procs.length).filter fun i =>
        decide ((procAt s.procs i).arrival_time ≤ s.time) &&
          decide (0 < (procAt s.procs i).remaining_time) && !(s.queue.contains i) }

/-- The loop condition
`queue.length > 0 || processesCopy.some(p => p.remaining_time > 0)`. -/
def rrCond (s : RRState) : Bool :=
  !s.queue.isEmpty || s.procs.any fun p => decide (0 < p.remaining_time)

/-- The dispatch-or-idle-jump part of a round-robin iteration (run after
the enqueue pass).  On a non-empty queue: shift the head, execute
`min(quantum, remaining_time)`, push the segment, and either set the
completion fields (`remaining_time === 0`) or push the process back.  On
an empty queue: jump to the next arrival if one exists (`Infinity`
otherwise leaves the time unchanged). -/
def rrDispatch (q : ℤ) (s : RRState) : RRState :=
  match s.queue with
  | [] =>
      let cand := (s.procs.filter fun p =>
        decide (s.time < p.arrival_time) && decide (0 < p.remaining_time)).map
          (fun p => p.arrival_time)
      match cand with
      | [] => s
      | a :: rest => { s with time := rest.foldl min a }
  | i :: rest =>
      let p := procAt s.procs i
      let e := min q p.remaining_time
      let fin := s.time + e
      let r := p.remaining_time - e
      let seg : Segment := ⟨p.pid, s.time, fin, e⟩
      if r = 0 then
        let done : Process :=
          { p with
              remaining_time := 0
              completion_time := some fin
              turnaround_time := some (fin - p.arrival_time)
              waiting_time := some (fin - p.arrival_time - p.burst_time) }
        { procs := s.procs.set i done, queue := rest, time := fin
          timeline := s.timeline ++ [seg] }
      else
        { procs := s.procs.set i { p with remaining_time := r }
          queue := rest ++ [i], time := fin
          timeline := s.timeline ++ [seg] }

/-- One full round-robin iteration. -/
def rrStep (q : ℤ) (s : RRState) : RRState := rrDispatch q (rrEnqueue s)

/-- The round-robin `while` loop, with fuel. -/
def rrLoop (q : ℤ) : ℕ → RRState → Option RRState
  | 0, s => if rrCond s then none else some s
  | f + 1, s => if rrCond s then rrLoop q f (rrStep q s) else some s

/-- Initial round-robin state:
`processesCopy = processes.map(p => ({ ...p, remaining_time: p.burst_time }))`
and `processesCopy.filter(p => p.arrival_time === 0).forEach(p => queue.push(p))`. -/
def rrInit (processes : List Process) : RRState :=
  let processesCopy := processes.map fun p => { p with remaining_time := p.burst_time }
  ⟨processesCopy,
    (List.range processesCopy.length).filter fun i =>
      decide ((procAt processesCopy i).arrival_time = 0),
    0, []⟩

/-- `roundRobinScheduling(processes, quantum)` from the source, with fuel.
`calculateStatistics` is applied to the whole `processesCopy`. -/
def roundRobinScheduling (fuel : ℕ) (processes : List Process) (quantum : ℤ) :
    Option SchedResult :=
  (rrLoop quantum fuel (rrInit processes)).map fun s =>
    ⟨s.timeline, s.procs, calculateStatistics s.procs⟩

/-! ## The simulation entry point -/

/-- `simulateScheduling(processes, algorithm, quantum = 3)` from the
source: build fresh process objects with `remaining_time = burst_time`,
then dispatch on the algorithm name; the `default` case throws
`new Error('Unknown algorithm')`.  No other validation is performed.
The outer `Option` is the fuel budget of the dispatched loop. -/
def simulateScheduling (fuel : ℕ) (processes : List Process) (algorithm : String)
    (quantum : ℤ) : Option (Except String SchedResult) :=
  let processObjects : List Process := processes.map fun p =>
    ⟨p.pid, p.arrival_time, p.burst_time, p.priority, p.burst_time, none, none, none⟩
  if algorithm = "fcfs" then some (.ok (fcfsScheduling processObjects))
  else if algorithm = "sjf" then (sjfScheduling fuel processObjects).map .ok
  else if algorithm = "rr" then
    (roundRobinScheduling fuel processObjects quantum).map .ok
  else if algorithm = "priority" then (priorityScheduling fuel processObjects).map .ok
  else some (.error "Unknown algorithm")

/-! ## Termination predicates -/

/-- `sjfScheduling` terminates on the given input. -/
def SjfTerminates (processes : List Process) : Prop :=
  ∃ fuel r, sjfScheduling fuel processes = some r

/-- `priorityScheduling` terminates on the given input. -/
def PriorityTerminates (processes : List Process) : Prop :=
  ∃ fuel r, priorityScheduling fuel processes = some r

/-- `roundRobinScheduling` terminates on the given input. -/
def RRTerminates (processes : List Process) (quantum : ℤ) : Prop :=
  ∃ fuel r, roundRobinScheduling fuel processes quantum = some r

/-! ## Disk SCAN (modelled from the spec) -/

/-- Sum of consecutive absolute track differences along a head trajectory. -/
def totalSeek : List ℤ → ℤ
  | [] => 0
  | [_] => 0
  | a :: b :: rest => |a - b| + totalSeek (b :: rest)

/-- Modelled from the spec: the disk-scheduling backend (the `/simulate`
endpoint the disk frontend posts to) is not among the sources, so SCAN is
taken from the specification text: "sort tracks; head moves in the
commanded direction servicing all requests in that direction, then
reverses and services the remainder after reaching the nearest disk
boundary (0 or disk_size−1) in that direction, even if no request lies
there".  Returns the visited positions (starting at the initial head
position) and `total_seek_time` = sum of consecutive absolute track
differences. -/
def scanScheduling (head : ℤ) (tracks : List ℤ) (up : Bool) (diskSize : ℤ) :
    List ℤ × ℤ :=
  let sorted := List.insertionSort (fun a b : ℤ => a ≤ b) tracks
  let visits :=
    if up then
      (head :: ((sorted.filter fun x => decide (head ≤ x)) ++
        ([diskSize - 1] ++ (sorted.filter fun x => decide (x < head)).reverse)))
    else
      (head :: ((sorted.filter fun x => decide (x ≤ head)).reverse ++
        ([0] ++ (sorted.filter fun x => decide (head < x)))))
  (visits, totalSeek visits)

/-! ## Derived observations used in the statements -/

/-- Placeholder for total indexing into a timeline. -/
def defaultSegment : Segment := ⟨0, 0, 0, 0⟩

/-- Total indexing into a timeline. -/
def segAt (ss : List Segment) (i : ℕ) : Segment := ss.getD i defaultSegment

/-- Sum of the durations of a timeline's segments. -/
def sumDur (ss : List Segment) : ℤ := (ss.map fun s => s.duration).sum

/-- Sum of the burst times of a process list. -/
def sumBurst (ps : List Process) : ℤ := (ps.map fun p => p.burst_time).sum

/-- Outstanding work of a round-robin state (clamped at 0). -/
def rrWork (s : RRState) : ℤ := (s.procs.map fun p => max p.remaining_time 0).sum

/-- Number of queued entries with non-positive remaining time (possible
only through the initial arrival-0 enqueue). -/
def rrZombies (s : RRState) : ℤ :=
  ((s.queue.filter fun i =>
    decide ((procAt s.procs i).remaining_time ≤ 0)).length : ℤ)

/-- 1 when the coming iteration will take the idle-jump branch. -/
def rrIdleFlag (s : RRState) : ℤ := if (rrEnqueue s).queue = [] then 1 else 0

/-- Strictly decreasing measure of the round-robin loop (quantum > 0). -/
def rrMeasure (s : RRState) : ℤ := 2 * (2 * rrWork s + rrZombies s) + rrIdleFlag s

/-- 1 when the coming SJF / priority iteration will take the idle-jump
branch. -/
def sjfIdleFlag (s : SchedState) : ℤ := if availableIdx s = [] then 1 else 0

/-- Strictly decreasing measure of the SJF / priority loop. -/
def schedMeasure (s : SchedState) : ℤ :=
  2 * ((s.procs.length : ℤ) - s.completed.length) + sjfIdleFlag s

/-- Loop invariant of the SJF / priority `while` loop (`bs` is the fixed
list of burst times of the simulated processes): the completed-index list
has no duplicates and stays in range, burst times never change, the
timeline's durations sum to the bursts of the completed processes, and
every completed process has consistent completion fields. -/
def schedInvariant (bs : List ℤ) (s : SchedState) : Prop :=
  s.completed.Nodup ∧
  (∀ i ∈ s.completed, i < s.procs.length) ∧
  s.procs.map (fun p => p.burst_time) = bs ∧
  sumDur s.timeline = (s.completed.map fun i => (procAt s.procs i).burst_time).sum ∧
  (∀ i ∈ s.completed, ∀ c, (procAt s.procs i).completion_time = some c →
    (procAt s.procs i).turnaround_time = some (c - (procAt s.procs i).arrival_time) ∧
    (procAt s.procs i).waiting_time =
      some (c - (procAt s.procs i).arrival_time - (procAt s.procs i).burst_time) ∧
    (procAt s.procs i).arrival_time + (procAt s.procs i).burst_time ≤ c)

/-- Loop invariant of the round-robin `while` loop (for quantum > 0 and
positive burst times; `bs` is the fixed list of burst times): queued
indices are in range, already arrived, with positive remaining time, and
the queue has no duplicates; remaining times stay in `[0, burst]`;
executed work is reflected in `current_time`; finished processes have
consistent completion fields; burst times never change; and the timeline's
durations sum to the total executed work. -/
def rrInvariant (bs : List ℤ) (s : RRState) : Prop :=
  s.queue.Nodup ∧
  (∀ i ∈ s.queue, i < s.procs.length ∧
    (procAt s.procs i).arrival_time ≤ s.time ∧
    0 < (procAt s.procs i).remaining_time) ∧
  (∀ p ∈ s.procs, 0 ≤ p.remaining_time ∧ p.remaining_time ≤ p.burst_time ∧
    0 < p.burst_time) ∧
  (∀ p ∈ s.procs, p.remaining_time < p.burst_time →
    p.arrival_time + (p.burst_time - p.remaining_time) ≤ s.time) ∧
  (∀ p ∈ s.procs, p.remaining_time = 0 → ∀ c, p.completion_time = some c →
    p.turnaround_time = some (c - p.arrival_time) ∧
    p.waiting_time = some (c - p.arrival_time - p.burst_time) ∧
    p.arrival_time + p.burst_time ≤ c) ∧
  s.procs.map (fun p => p.burst_time) = bs ∧
  sumDur s.timeline = (s.procs.map fun p => p.burst_time - p.remaining_time).sum

/-! ## Helper lemmas -/

/-- `foldl min` computes the minimum of `a :: rest`: the result is a lower
bound and is attained. -/
theorem foldl_min_spec (rest : List ℤ) (a : ℤ) :
    (rest.foldl min a ≤ a ∧ ∀ x ∈ rest, rest.foldl min a ≤ x) ∧
      (rest.foldl min a = a ∨ rest.foldl min a ∈ rest) := by
  induction rest generalizing a with
  | nil => simp
  | cons b tl ih =>
      have h := ih (min a b)
      simp only [List.foldl_cons]
      refine ⟨⟨h.1.1.trans (min_le_left a b), ?_⟩, ?_⟩
      · intro x hx
        rcases List.mem_cons.1 hx with rfl | hx
        · exact h.1.1.trans (min_le_right a x)
        · exact h.1.2 x hx
      · rcases h.2 with heq | hmem
        · rcases le_total a b with hab | hab
          · left; rw [heq]; exact min_eq_left hab
          · right; rw [heq, min_eq_right hab]; exact List.mem_cons_self _ _
        · right; exact List.mem_cons_of_mem _ hmem

/-- The JavaScript `reduce` with strict `<` returns the first element of
the list attaining the minimum key: the list splits as
`before ++ sel :: after` with `sel` a global minimum and every element
before it strictly larger. -/
theorem reduceFirstMin_spec (key : Process → ℤ) (ps : List Process)
    (tl : List ℕ) : ∀ hd : ℕ,
    ∃ l1 l2, hd :: tl = l1 ++ reduceFirstMin key ps hd tl :: l2 ∧
      (∀ j ∈ hd :: tl,
        key (procAt ps (reduceFirstMin key ps hd tl)) ≤ key (procAt ps j)) ∧
      (∀ j ∈ l1,
        key (procAt ps (reduceFirstMin key ps hd tl)) < key (procAt ps j)) := by
  induction tl with
  | nil =>
      intro hd
      exact ⟨[], [], rfl, by simp [reduceFirstMin], by simp⟩
  | cons c rest ih =>
      intro hd
      by_cases hlt : key (procAt ps c) < key (procAt ps hd)
      · have hstep : reduceFirstMin key ps hd (c :: rest) =
            reduceFirstMin key ps c rest := by
          simp [reduceFirstMin, List.foldl, hlt]
        obtain ⟨l1, l2, hsplit, hmin, hbefore⟩ := ih c
        refine ⟨hd :: l1, l2, ?_, ?_, ?_⟩
        · rw [hstep]; simpa using congrArg (hd :: ·) hsplit
        · intro j hj
          rw [hstep]
          rcases List.mem_cons.1 hj with rfl | hj
          · exact le_of_lt (lt_of_le_of_lt (hmin c (List.mem_cons_self _ _)) hlt)
          · exact hmin j hj
        · intro j hj
          rw [hstep]
          rcases List.mem_cons.1 hj with rfl | hj
          · exact lt_of_le_of_lt (hmin c (List.mem_cons_self _ _)) hlt
          · exact hbefore j hj
      · have hstep : reduceFirstMin key ps hd (c :: rest) =
            reduceFirstMin key ps hd rest := by
          simp [reduceFirstMin, List.foldl, hlt]
        obtain ⟨l1, l2, hsplit, hmin, hbefore⟩ := ih hd
        have hhdc : key (procAt ps hd) ≤ key (procAt ps c) := le_of_not_lt hlt
        rcases l1 with _ | ⟨x, l1'⟩
        · -- sel is the head itself
          have hsel : reduceFirstMin key ps hd rest = hd := by
            have := congrArg (fun l => l.head?) hsplit
            simpa using this.symm
          refine ⟨[], c :: rest, ?_, ?_, ?_⟩
          · rw [hstep, hsel]; rfl
          · intro j hj
            rw [hstep, hsel]
            rcases List.mem_cons.1 hj with rfl | hj
            · exact le_refl _
            · rcases List.mem_cons.1 hj with rfl | hj
              · exact hhdc
              · have : j ∈ hd :: rest := List.mem_cons_of_mem _ hj
                simpa [hsel] using hmin j this
          · intro j hj; simp at hj
        · -- sel is inside rest; x = hd
          have hx : x = hd := by
            have := congrArg (fun l => l.head?) hsplit
            simpa using this.symm
          subst hx
          have hrest : rest = l1' ++ reduceFirstMin key ps x rest :: l2 := by
            have := congrArg List.tail hsplit
            simpa using this
          refine ⟨x :: c :: l1', l2, ?_, ?_, ?_⟩
          · rw [hstep]
            simpa using congrArg (fun l => x :: c :: l) hrest
          · intro j hj
            rw [hstep]
            rcases List.mem_cons.1 hj with rfl | hj
            · exact hmin j (List.mem_cons_self _ _)
            · rcases List.mem_cons.1 hj with rfl | hj
              · exact (hmin x (List.mem_cons_self _ _)).trans hhdc
              · exact hmin j (List.mem_cons_of_mem _ hj)
          · intro j hj
            rw [hstep]
            rcases List.mem_cons.1 hj with rfl | hj
            · exact hbefore j (List.mem_cons_self _ _)
            · rcases List.mem_cons.1 hj with rfl | hj
              · exact lt_of_lt_of_le (hbefore x (List.mem_cons_self _ _)) hhdc
              · exact hbefore j (List.mem_cons_of_mem _ hj)

/-! ## Claim C9 -/

/-- C9 (counterexample): for SCAN with initial head 50, pending tracks
{10, 70, 90}, direction up and disk size 200, the modelled SCAN (which per
the specification continues to the disk boundary 199 before reversing)
yields total_seek_time 338, not the claimed 120. -/
theorem scan_example_counterexample :
    (scanScheduling 50 [10, 70, 90] true 200).2 ≠ 120 ∧
      (scanScheduling 50 [10, 70, 90] true 200).2 = 338 := by decide

/-- C9 (amended): for SCAN with initial head 50, pending tracks
{10, 70, 90}, direction up and disk size 200, the head visits 70 then 90,
continues to the disk boundary 199 (even though no request lies there),
then reverses to reach 10; total_seek_time = (199−50) + (199−10) = 338. -/
theorem scan_example_amended :
    scanScheduling 50 [10, 70, 90] true 200 = ([50, 70, 90, 199, 10], 338) := by
  decide

/-! ## Claim C5 -/

/-- C5 (counterexample): on an empty process set, `simulateScheduling`
does not report an error condition — it returns an ordinary result with an
empty timeline and empty statistics. -/
theorem simulateScheduling_empty_counterexample :
    simulateScheduling 1 [] "fcfs" 3 =
      some (Except.ok ⟨[], [], none⟩) := rfl

/-- C5 (amended): `simulateScheduling` reports an error condition only for
an unknown algorithm name; it performs no input validation: an empty
process set yields an ordinary empty result, a process with
`burst_time ≤ 0` is passed straight to the scheduler, and a Round Robin
quantum ≤ 0 is not rejected. -/
theorem simulateScheduling_validation (fuel : ℕ) (ps : List Process)
    (alg : String) (q : ℤ)
    (halg : alg ≠ "fcfs" ∧ alg ≠ "sjf" ∧ alg ≠ "rr" ∧ alg ≠ "priority") :
    simulateScheduling fuel ps alg q = some (.error "Unknown algorithm") ∧
      simulateScheduling fuel [] "fcfs" q = some (.ok ⟨[], [], none⟩) ∧
      simulateScheduling fuel [⟨1, 0, 0, 1, 0, none, none, none⟩] "fcfs" q =
        some (.ok (fcfsScheduling [⟨1, 0, 0, 1, 0, none, none, none⟩])) ∧
      simulateScheduling fuel [] "rr" (-1) = some (.ok ⟨[], [], none⟩) := by
  obtain ⟨h1, h2, h3, h4⟩ := halg
  refine ⟨?_, ?_, ?_, ?_⟩
  · simp [simulateScheduling, h1, h2, h3, h4]
  · rfl
  · rfl
  · cases fuel <;> rfl

/-- C5 (witness for the amended theorem): instantiated at the unknown
algorithm name "scan". -/
theorem simulateScheduling_validation_witness :
    simulateScheduling 1 [] "scan" 3 = some (.error "Unknown algorithm") :=
  (simulateScheduling_validation 1 [] "scan" 3
    (by refine ⟨?_, ?_, ?_, ?_⟩ <;> decide)).1

/-! ## Claim C6 -/

/-- C6 (counterexample): on an input whose maximum completion time is 0,
`calculateStatistics` returns throughput `Infinity` (the JavaScript
division `1 / 0`), not a defined error. -/
theorem throughput_zero_counterexample :
    (calculateStatistics [⟨1, 0, 0, 1, 0, some 0, some 0, some 0⟩]).map
      Statistics.throughput = some JsNum.inf := by decide

/-- C6 (amended): for every non-empty input on which the maximum
completion time (`total_time`, computed by `Math.max` over the
`completion_time` fields) is 0, the throughput computed by
`calculateStatistics` is `Infinity` (JavaScript `count / 0` with
`count > 0`), not a defined error. -/
theorem throughput_zero_amended (ps : List Process) (hne : ps ≠ [])
    (htot : ps.foldl (fun m p => jsMax m (jsOfOpt p.completion_time)) .negInf =
      .num 0) :
    (calculateStatistics ps).map Statistics.throughput = some JsNum.inf := by
  have hlen : ps.length ≠ 0 := by
    intro h; exact hne (List.length_eq_zero.1 h)
  have hlenq : (0 : ℚ) < ps.length := by
    have : 0 < ps.length := Nat.pos_of_ne_zero hlen
    exact_mod_cast this
  simp only [calculateStatistics, if_neg hne, htot, Option.map_some']
  simp [jsDiv, hlenq, ne_of_gt hlenq]

/-- C6 (witness for the amended theorem): a single process whose
completion time is 0. -/
theorem throughput_zero_amended_witness :
    (calculateStatistics [⟨1, 0, 0, 1, 0, some 0, some 5, some 5⟩]).map
      Statistics.throughput = some JsNum.inf :=
  throughput_zero_amended [⟨1, 0, 0, 1, 0, some 0, some 5, some 5⟩]
    (by decide) (by decide)

/-! ## Claim C10 -/

/-- C10: in `sjfScheduling` and `priorityScheduling` the selection step
(`available.reduce` with strict `<`) picks, among tying minima, the
process occurring earliest in the (input-ordered) available list — not the
one with the lowest pid.  First conjunct: for every key function (burst
time for SJF, priority for priority scheduling) and every available list
`hd :: tl`, the selected index splits the list as `before ++ sel :: after`
where `sel` attains the minimum key and everything before it is strictly
larger.  Remaining conjuncts: concretely, on two processes tying on burst
time (resp. priority) where the earlier-input process has the larger pid,
both schedulers run the earlier-input process first. -/
theorem tiebreak_input_order :
    (∀ (key : Process → ℤ) (ps : List Process) (hd : ℕ) (tl : List ℕ),
      ∃ l1 l2, hd :: tl = l1 ++ reduceFirstMin key ps hd tl :: l2 ∧
        (∀ j ∈ hd :: tl,
          key (procAt ps (reduceFirstMin key ps hd tl)) ≤ key (procAt ps j)) ∧
        (∀ j ∈ l1,
          key (procAt ps (reduceFirstMin key ps hd tl)) < key (procAt ps j))) ∧
      (Option.map (fun r => r.timeline.map Segment.pid)
          (sjfScheduling 5 [⟨5, 0, 4, 3, 4, none, none, none⟩,
            ⟨2, 0, 4, 3, 4, none, none, none⟩]) = some [5, 2]) ∧
      (Option.map (fun r => r.timeline.map Segment.pid)
          (priorityScheduling 5 [⟨5, 0, 4, 3, 4, none, none, none⟩,
            ⟨2, 0, 4, 3, 4, none, none, none⟩]) = some [5, 2]) := by
  refine ⟨fun key ps hd tl => reduceFirstMin_spec key ps tl hd, by decide, by decide⟩

/-! ## Claim C3 -/

/-- The dispatch part of a round-robin iteration either leaves the
timeline unchanged (idle jump) or appends a single segment whose duration,
`min(quantum, remaining_time)`, is at most the quantum. -/
theorem rrDispatch_timeline (q : ℤ) (s : RRState) :
    (rrDispatch q s).timeline = s.timeline ∨
      ∃ seg, (rrDispatch q s).timeline = s.timeline ++ [seg] ∧ seg.duration ≤ q := by
  unfold rrDispatch
  rcases hq : s.queue with _ | ⟨i, rest⟩
  · simp only
    rcases hc : (s.procs.filter fun p =>
        decide (s.time < p.arrival_time) && decide (0 < p.remaining_time)).map
          (fun p => p.arrival_time) with _ | ⟨a, tl⟩
    · left; rw [hc]
    · left; rw [hc]
  · simp only
    split
    · right
      refine ⟨_, rfl, ?_⟩
      exact min_le_left _ _
    · right
      refine ⟨_, rfl, ?_⟩
      exact min_le_left _ _

/-- One round-robin iteration either leaves the timeline unchanged or
appends a single segment of duration at most the quantum. -/
theorem rrStep_timeline (q : ℤ) (s : RRState) :
    (rrStep q s).timeline = s.timeline ∨
      ∃ seg, (rrStep q s).timeline = s.timeline ++ [seg] ∧ seg.duration ≤ q := by
  have htl : (rrEnqueue s).timeline = s.timeline := rfl
  rcases rrDispatch_timeline q (rrEnqueue s) with h | ⟨seg, h, hle⟩
  · left; rw [rrStep, h, htl]
  · right; exact ⟨seg, by rw [rrStep, h, htl], hle⟩

/-- The round-robin loop preserves "every segment's duration is at most
the quantum". -/
theorem rrLoop_timeline_bound (q : ℤ) :
    ∀ (fuel : ℕ) (s s' : RRState), rrLoop q fuel s = some s' →
      (∀ seg ∈ s.timeline, seg.duration ≤ q) →
      ∀ seg ∈ s'.timeline, seg.duration ≤ q := by
  intro fuel
  induction fuel with
  | zero =>
      intro s s' hrun hinv
      by_cases hc : rrCond s
      · simp [rrLoop, hc] at hrun
      · simp [rrLoop, hc] at hrun
        exact hrun ▸ hinv
  | succ f ih =>
      intro s s' hrun hinv
      by_cases hc : rrCond s
      · simp only [rrLoop, hc, if_true] at hrun
        refine ih (rrStep q s) s' hrun ?_
        rcases rrStep_timeline q s with heq | ⟨seg, heq, hle⟩
        · rw [heq]; exact hinv
        · rw [heq]
          intro x hx
          rcases List.mem_append.1 hx with hx | hx
          · exact hinv x hx
          · rcases List.mem_singleton.1 hx with rfl
            exact hle
      · simp [rrLoop, hc] at hrun
        exact hrun ▸ hinv

/-- C3: for every process list and quantum > 0, no segment in the timeline
produced by `roundRobinScheduling` has a duration exceeding the quantum
(each dispatched segment's duration is `min(quantum, remaining_time)`). -/
theorem rr_segment_le_quantum (fuel : ℕ) (ps : List Process) (q : ℤ)
    (res : SchedResult) (hq : 0 < q)
    (hrun : roundRobinScheduling fuel ps q = some res)
    (seg : Segment) (hseg : seg ∈ res.timeline) : seg.duration ≤ q := by
  unfold roundRobinScheduling at hrun
  rcases Option.map_eq_some'.1 hrun with ⟨s', hloop, hres⟩
  subst hres
  refine rrLoop_timeline_bound q fuel (rrInit ps) s' hloop ?_ seg hseg
  intro x hx
  simp [rrInit] at hx

/-- C3 (witness): a one-process run with quantum 1. -/
theorem rr_segment_le_quantum_witness : (⟨1, 0, 1, 1⟩ : Segment).duration ≤ 1 :=
  rr_segment_le_quantum 3 [⟨1, 0, 1, 1, 1, none, none, none⟩] 1
    ⟨[⟨1, 0, 1, 1⟩],
      [⟨1, 0, 1, 1, 0, some 1, some 1, some 0⟩],
      calculateStatistics [⟨1, 0, 1, 1, 0, some 1, some 1, some 0⟩]⟩
    (by decide) rfl ⟨1, 0, 1, 1⟩ (by decide)

/-! ## Claim C2 -/

/-- C2: at each decision point of `sjfScheduling` (one iteration of its
`while` loop, `schedStep` with key `burst_time`): if some process is
available (`arrival_time ≤ current_time` and not yet completed), a process
with minimum burst time among the available ones is selected and run to
completion — one segment from `current_time` to `current_time +
burst_time`, completion fields set, process marked completed; if no
process is available, `current_time` is advanced to the minimum
arrival_time among the not-yet-completed processes and nothing else
changes. -/
theorem sjf_decision_step (s : SchedState) :
    (∀ i tl, availableIdx s = i :: tl →
      ∃ sel ∈ availableIdx s,
        (∀ j ∈ availableIdx s,
          (procAt s.procs sel).burst_time ≤ (procAt s.procs j).burst_time) ∧
        schedStep (fun p => p.burst_time) s =
          { procs := s.procs.set sel
              { procAt s.procs sel with
                  completion_time := some (s.time + (procAt s.procs sel).burst_time)
                  turnaround_time := some (s.time + (procAt s.procs sel).burst_time -
                    (procAt s.procs sel).arrival_time)
                  waiting_time := some (s.time + (procAt s.procs sel).burst_time -
                    (procAt s.procs sel).arrival_time -
                    (procAt s.procs sel).burst_time) }
            completed := s.completed ++ [sel]
            time := s.time + (procAt s.procs sel).burst_time
            timeline := s.timeline ++ [⟨(procAt s.procs sel).pid, s.time,
              s.time + (procAt s.procs sel).burst_time,
              (procAt s.procs sel).burst_time⟩] }) ∧
    (availableIdx s = [] →
      schedStep (fun p => p.burst_time) s = { s with time := jumpTime s } ∧
      (pendingIdx s ≠ [] →
        jumpTime s ∈ (pendingIdx s).map (fun i => (procAt s.procs i).arrival_time) ∧
        ∀ j ∈ pendingIdx s, jumpTime s ≤ (procAt s.procs j).arrival_time)) := by
  constructor
  · intro i tl hav
    refine ⟨reduceFirstMin (fun p => p.burst_time) s.procs i tl, ?_, ?_, ?_⟩
    · obtain ⟨l1, l2, hsplit, -, -⟩ :=
        reduceFirstMin_spec (fun p => p.burst_time) s.procs tl i
      rw [hav, hsplit]
      exact List.mem_append.2 (Or.inr (List.mem_cons_self _ _))
    · obtain ⟨-, -, -, hmin, -⟩ :=
        reduceFirstMin_spec (fun p => p.burst_time) s.procs tl i
      intro j hj
      exact hmin j (hav ▸ hj)
    · simp only [schedStep, hav]
  · intro hav
    constructor
    · simp only [schedStep, hav]
    · intro hpend
      rcases hmap : (pendingIdx s).map (fun i => (procAt s.procs i).arrival_time)
        with _ | ⟨a, tl⟩
      · exact absurd (List.map_eq_nil_iff.1 hmap) hpend
      · have hj : jumpTime s = tl.foldl min a := by
          simp only [jumpTime, hmap]
        obtain ⟨⟨hla, hltl⟩, hattain⟩ := foldl_min_spec tl a
        constructor
        · rw [hj]
          rcases hattain with heq | hmem
          · rw [heq]; exact List.mem_cons_self _ _
          · exact List.mem_cons_of_mem _ hmem
        · intro j hjmem
          have : (procAt s.procs j).arrival_time ∈ a :: tl := by
            rw [← hmap]
            exact List.mem_map_of_mem _ hjmem
          rcases List.mem_cons.1 this with heq | hmem
          · rw [hj, heq]; exact hla
          · rw [hj]; exact hltl _ hmem

/-- C2 (witness): a concrete decision point with one available process. -/
theorem sjf_decision_step_witness :
    ∃ sel ∈ availableIdx ⟨[⟨1, 0, 2, 1, 2, none, none, none⟩], [], 0, []⟩,
      (∀ j ∈ availableIdx ⟨[⟨1, 0, 2, 1, 2, none, none, none⟩], [], 0, []⟩,
        (procAt [⟨1, 0, 2, 1, 2, none, none, none⟩] sel).burst_time ≤
          (procAt [⟨1, 0, 2, 1, 2, none, none, none⟩] j).burst_time) ∧
      schedStep (fun p => p.burst_time)
          ⟨[⟨1, 0, 2, 1, 2, none, none, none⟩], [], 0, []⟩ =
        { procs := [⟨1, 0, 2, 1, 2, none, none, none⟩].set sel
            { procAt [⟨1, 0, 2, 1, 2, none, none, none⟩] sel with
                completion_time := some (0 + (procAt [⟨1, 0, 2, 1, 2, none, none,
                  none⟩] sel).burst_time)
                turnaround_time := some (0 + (procAt [⟨1, 0, 2, 1, 2, none, none,
                  none⟩] sel).burst_time -
                  (procAt [⟨1, 0, 2, 1, 2, none, none, none⟩] sel).arrival_time)
                waiting_time := some (0 + (procAt [⟨1, 0, 2, 1, 2, none, none,
                  none⟩] sel).burst_time -
                  (procAt [⟨1, 0, 2, 1, 2, none, none, none⟩] sel).arrival_time -
                  (procAt [⟨1, 0, 2, 1, 2, none, none, none⟩] sel).burst_time) }
          completed := [] ++ [sel]
          time := 0 + (procAt [⟨1, 0, 2, 1, 2, none, none, none⟩] sel).burst_time
          timeline := [] ++ [⟨(procAt [⟨1, 0, 2, 1, 2, none, none, none⟩] sel).pid,
            0, 0 + (procAt [⟨1, 0, 2, 1, 2, none, none, none⟩] sel).burst_time,
            (procAt [⟨1, 0, 2, 1, 2, none, none, none⟩] sel).burst_time⟩] } :=
  (sjf_decision_step ⟨[⟨1, 0, 2, 1, 2, none, none, none⟩], [], 0, []⟩).1 0 []
    (by decide)

/-! ## Claim C1 -/

/-- Unfolding one step of the FCFS loop. -/
theorem fcfsGo_cons (t : ℤ) (p : Process) (rest : List Process) :
    fcfsGo t (p :: rest) =
      (⟨p.pid, max t p.arrival_time, max t p.arrival_time + p.burst_time,
          p.burst_time⟩ ::
        (fcfsGo (max t p.arrival_time + p.burst_time) rest).1,
       { p with
           completion_time := some (max t p.arrival_time + p.burst_time)
           turnaround_time := some (max t p.arrival_time + p.burst_time -
             p.arrival_time)
           waiting_time := some (max t p.arrival_time + p.burst_time -
             p.arrival_time - p.burst_time) } ::
        (fcfsGo (max t p.arrival_time + p.burst_time) rest).2) := rfl

/-- The FCFS loop emits exactly one segment and one completed record per
process. -/
theorem fcfsGo_lengths (l : List Process) : ∀ t : ℤ,
    (fcfsGo t l).1.length = l.length ∧ (fcfsGo t l).2.length = l.length := by
  induction l with
  | nil => intro t; simp [fcfsGo]
  | cons p rest ih =>
      intro t
      rw [fcfsGo_cons]
      simp only [List.length_cons]
      exact ⟨by rw [(ih _).1], by rw [(ih _).2]⟩

/-- Indexing into a list of processes stays inside the list. -/
theorem procAt_mem (l : List Process) (i : ℕ) (h : i < l.length) :
    procAt l i ∈ l := by
  rw [procAt, List.getD_eq_get l defaultProcess h]
  exact List.get_mem _ _ _

/-- Each FCFS segment carries the pid and the full burst of the process at
the same position of the sorted list, with `end = start + burst`. -/
theorem fcfsGo_seg_fields (l : List Process) : ∀ (t : ℤ) (i : ℕ), i < l.length →
    (segAt (fcfsGo t l).1 i).pid = (procAt l i).pid ∧
    (segAt (fcfsGo t l).1 i).duration = (procAt l i).burst_time ∧
    (segAt (fcfsGo t l).1 i).«end» =
      (segAt (fcfsGo t l).1 i).start + (procAt l i).burst_time := by
  induction l with
  | nil => intro t i hi; simp at hi
  | cons p rest ih =>
      intro t i hi
      cases i with
      | zero => exact ⟨rfl, rfl, rfl⟩
      | succ n =>
          have hn : n < rest.length := by simpa using hi
          simpa [fcfsGo_cons, segAt, procAt, List.getD_cons_succ] using ih _ n hn

/-- Start time of the first FCFS segment: `max(current_time, arrival)`. -/
theorem fcfsGo_start_zero (t : ℤ) (p : Process) (rest : List Process) :
    (segAt (fcfsGo t (p :: rest)).1 0).start = max t p.arrival_time := rfl

/-- Start time of every later FCFS segment: the maximum of the previous
segment's end and the process's arrival time. -/
theorem fcfsGo_start_succ (l : List Process) : ∀ (t : ℤ) (i : ℕ),
    i + 1 < l.length →
    (segAt (fcfsGo t l).1 (i + 1)).start =
      max ((segAt (fcfsGo t l).1 i).«end») (procAt l (i + 1)).arrival_time := by
  induction l with
  | nil => intro t i hi; simp at hi
  | cons p rest ih =>
      intro t i hi
      cases i with
      | zero =>
          have hr : 0 < rest.length := by simpa using hi
          rcases rest with _ | ⟨q, rest'⟩
          · simp at hr
          · rfl
      | succ n =>
          have hn : n + 1 < rest.length := by simpa using hi
          simpa [fcfsGo_cons, segAt, procAt, List.getD_cons_succ] using ih _ n hn

/-- The completed record at position `i` is the sorted process at position
`i` with completion time the end of its (unique) segment, turnaround =
completion − arrival and waiting = turnaround − burst. -/
theorem fcfsGo_completed (l : List Process) : ∀ (t : ℤ) (i : ℕ), i < l.length →
    procAt (fcfsGo t l).2 i =
      { procAt l i with
          completion_time := some ((segAt (fcfsGo t l).1 i).«end»)
          turnaround_time := some ((segAt (fcfsGo t l).1 i).«end» -
            (procAt l i).arrival_time)
          waiting_time := some ((segAt (fcfsGo t l).1 i).«end» -
            (procAt l i).arrival_time - (procAt l i).burst_time) } := by
  induction l with
  | nil => intro t i hi; simp at hi
  | cons p rest ih =>
      intro t i hi
      cases i with
      | zero => rfl
      | succ n =>
          have hn : n < rest.length := by simpa using hi
          simpa [fcfsGo_cons, segAt, procAt, List.getD_cons_succ] using ih _ n hn

/-- With positive bursts, consecutive FCFS segment end times are
non-decreasing. -/
theorem fcfsGo_end_adj (l : List Process) (hb : ∀ p ∈ l, 0 < p.burst_time)
    (t : ℤ) (i : ℕ) (hi : i + 1 < l.length) :
    (segAt (fcfsGo t l).1 i).«end» ≤ (segAt (fcfsGo t l).1 (i + 1)).«end» := by
  have h1 := (fcfsGo_seg_fields l t (i + 1) hi).2.2
  have h2 := fcfsGo_start_succ l t i hi
  have hbpos : 0 < (procAt l (i + 1)).burst_time := hb _ (procAt_mem l (i + 1) hi)
  have hstart : (segAt (fcfsGo t l).1 i).«end» ≤
      (segAt (fcfsGo t l).1 (i + 1)).start := by
    rw [h2]; exact le_max_left _ _
  omega

/-- With positive bursts, FCFS segment end times (= completion times) are
monotone in the run order. -/
theorem fcfsGo_end_mono (l : List Process) (hb : ∀ p ∈ l, 0 < p.burst_time)
    (t : ℤ) (i j : ℕ) (hij : i ≤ j) (hj : j < l.length) :
    (segAt (fcfsGo t l).1 i).«end» ≤ (segAt (fcfsGo t l).1 j).«end» := by
  induction j, hij using Nat.le_induction with
  | base => exact le_refl _
  | succ j hij ih =>
      have hjlt : j < l.length := Nat.lt_of_succ_lt hj
      exact (ih hjlt).trans (fcfsGo_end_adj l hb t j hj)

/-- C1: `fcfsScheduling` runs the processes in the order given by sorting
on (arrival_time ascending, pid ascending as tie-break): the sorted list
is a permutation of the input sorted by that relation, the timeline has
exactly one segment per process (no preemption) whose pid and duration are
those of the sorted process at the same position, each segment starts at
`max(previous end, arrival_time)` (the first at `max(0, arrival_time)`),
each process's completion time is the end of its unique segment, and
processes with equal arrival time appear — and, with positive bursts,
complete — in pid order. -/
theorem fcfs_order_and_segments (ps : List Process) (hne : ps ≠ []) :
    (fcfsSort ps).Perm ps ∧
    List.Sorted fcfsRel (fcfsSort ps) ∧
    (fcfsScheduling ps).timeline.length = ps.length ∧
    (∀ i, i < ps.length →
      (segAt (fcfsScheduling ps).timeline i).pid = (procAt (fcfsSort ps) i).pid ∧
      (segAt (fcfsScheduling ps).timeline i).duration =
        (procAt (fcfsSort ps) i).burst_time ∧
      (segAt (fcfsScheduling ps).timeline i).«end» =
        (segAt (fcfsScheduling ps).timeline i).start +
          (procAt (fcfsSort ps) i).burst_time) ∧
    (segAt (fcfsScheduling ps).timeline 0).start =
      max 0 (procAt (fcfsSort ps) 0).arrival_time ∧
    (∀ i, i + 1 < ps.length →
      (segAt (fcfsScheduling ps).timeline (i + 1)).start =
        max ((segAt (fcfsScheduling ps).timeline i).«end»)
          (procAt (fcfsSort ps) (i + 1)).arrival_time) ∧
    (∀ i, i < ps.length →
      procAt (fcfsScheduling ps).completed i =
        { procAt (fcfsSort ps) i with
            completion_time := some ((segAt (fcfsScheduling ps).timeline i).«end»)
            turnaround_time := some ((segAt (fcfsScheduling ps).timeline i).«end» -
              (procAt (fcfsSort ps) i).arrival_time)
            waiting_time := some ((segAt (fcfsScheduling ps).timeline i).«end» -
              (procAt (fcfsSort ps) i).arrival_time -
              (procAt (fcfsSort ps) i).burst_time) }) ∧
    (∀ i j, i ≤ j → j < ps.length →
      (procAt (fcfsSort ps) i).arrival_time =
        (procAt (fcfsSort ps) j).arrival_time →
      (procAt (fcfsSort ps) i).pid ≤ (procAt (fcfsSort ps) j).pid) ∧
    ((∀ p ∈ ps, 0 < p.burst_time) → ∀ i j, i ≤ j → j < ps.length →
      (segAt (fcfsScheduling ps).timeline i).«end» ≤
        (segAt (fcfsScheduling ps).timeline j).«end») := by
  have hperm : (fcfsSort ps).Perm ps := List.perm_insertionSort fcfsRel ps
  have hsorted : List.Sorted fcfsRel (fcfsSort ps) :=
    List.sorted_insertionSort fcfsRel ps
  have hlen : (fcfsSort ps).length = ps.length := hperm.length_eq
  have htl : (fcfsScheduling ps).timeline = (fcfsGo 0 (fcfsSort ps)).1 := rfl
  have hcmp : (fcfsScheduling ps).completed = (fcfsGo 0 (fcfsSort ps)).2 := rfl
  refine ⟨hperm, hsorted, ?_, ?_, ?_, ?_, ?_, ?_, ?_⟩
  · rw [htl, (fcfsGo_lengths (fcfsSort ps) 0).1, hlen]
  · intro i hi
    rw [htl]
    exact fcfsGo_seg_fields (fcfsSort ps) 0 i (by rw [hlen]; exact hi)
  · rw [htl]
    rcases hs : fcfsSort ps with _ | ⟨p, rest⟩
    · rw [hs] at hperm
      exact absurd hperm.symm.eq_nil hne
    · rw [fcfsGo_start_zero]
      rfl
  · intro i hi
    rw [htl]
    exact fcfsGo_start_succ (fcfsSort ps) 0 i (by rw [hlen]; exact hi)
  · intro i hi
    rw [htl, hcmp]
    exact fcfsGo_completed (fcfsSort ps) 0 i (by rw [hlen]; exact hi)
  · intro i j hij hj harr
    have hj' : j < (fcfsSort ps).length := by rw [hlen]; exact hj
    have hi' : i < (fcfsSort ps).length := lt_of_le_of_lt hij hj'
    rcases Nat.lt_or_ge i j with hlt | hge
    · have hrel : fcfsRel ((fcfsSort ps).get ⟨i, hi'⟩) ((fcfsSort ps).get ⟨j, hj'⟩) :=
        hsorted.rel_get_of_lt hlt
      rw [procAt, procAt, List.getD_eq_get _ defaultProcess hi',
        List.getD_eq_get _ defaultProcess hj'] at harr ⊢
      rcases hrel with h | ⟨-, h⟩
      · exact absurd harr (ne_of_lt h)
      · exact h
    · have : i = j := le_antisymm hij hge
      subst this
      exact le_refl _
  · intro hb i j hij hj
    rw [htl]
    refine fcfsGo_end_mono (fcfsSort ps) ?_ 0 i j hij (by rw [hlen]; exact hj)
    intro p hp
    exact hb p (hperm.mem_iff.1 hp)

/-- C1 (witness): a two-process run. -/
theorem fcfs_order_and_segments_witness :
    (fcfsScheduling [⟨1, 0, 5, 2, 5, none, none, none⟩,
      ⟨2, 1, 3, 1, 3, none, none, none⟩]).timeline.length = 2 :=
  (fcfs_order_and_segments [⟨1, 0, 5, 2, 5, none, none, none⟩,
    ⟨2, 1, 3, 1, 3, none, none, none⟩] (by decide)).2.2.1

/-! ## Claims C4 and C7: loop invariants -/

/-- Writing at one index leaves the others unchanged. -/
theorem procAt_set_ne (l : List Process) (i j : ℕ) (p : Process) (h : i ≠ j) :
    procAt (l.set i p) j = procAt l j := by
  unfold procAt List.getD
  rw [List.get?_eq_getElem?, List.get?_eq_getElem?, List.getElem?_set_ne h]

/-- Writing at an in-range index is read back. -/
theorem procAt_set_self (l : List Process) (i : ℕ) (p : Process)
    (h : i < l.length) : procAt (l.set i p) i = p := by
  unfold procAt List.getD
  rw [List.get?_eq_getElem?, List.getElem?_set_self h]
  rfl

/-- Reading every index of a process list in order gives the list back. -/
theorem procAt_range (l : List Process) :
    (List.range l.length).map (procAt l) = l := by
  refine List.ext_get (by simp) ?_
  intro n h1 h2
  simp only [List.get_eq_getElem, List.getElem_map, List.getElem_range]
  rw [procAt, List.getD_eq_getElem l defaultProcess h2]

/-- Reading a mapped value at an in-range index. -/
theorem map_getD_eq (l : List Process) (f : Process → ℤ) (i : ℕ)
    (h : i < l.length) : (l.map f).getD i 0 = f (procAt l i) := by
  rw [List.getD_eq_getElem _ _ (by simpa using h), List.getElem_map, procAt,
    List.getD_eq_getElem _ _ h]

/-- Sum after overwriting one entry of an integer list. -/
theorem sum_set_int (l : List ℤ) : ∀ (i : ℕ) (a : ℤ), i < l.length →
    (l.set i a).sum = l.sum + a - l.getD i 0 := by
  induction l with
  | nil => intro i a h; simp at h
  | cons x xs ih =>
      intro i a h
      cases i with
      | zero => simp [List.set]; ring
      | succ n =>
          have hn : n < xs.length := by simpa using h
          simp only [List.set, List.sum_cons, List.getD_cons_succ, ih n a hn]
          ring

/-- Sum of a mapped list after overwriting one entry. -/
theorem map_sum_set (l : List Process) (i : ℕ) (p : Process) (f : Process → ℤ)
    (h : i < l.length) :
    ((l.set i p).map f).sum = (l.map f).sum + f p - f (procAt l i) := by
  rw [List.map_set, sum_set_int _ i (f p) (by simpa using h), map_getD_eq l f i h]

/-- Durations sum of an extended timeline. -/
theorem sumDur_append (tl : List Segment) (seg : Segment) :
    sumDur (tl ++ [seg]) = sumDur tl + seg.duration := by
  simp [sumDur]

/-- Membership in the available-process list of SJF / priority. -/
theorem mem_availableIdx (s : SchedState) (i : ℕ) :
    i ∈ availableIdx s ↔ i < s.procs.length ∧
      (procAt s.procs i).arrival_time ≤ s.time ∧ i ∉ s.completed := by
  simp [availableIdx, List.mem_filter, List.mem_range, and_assoc]

/-- Membership in the pending-process list of SJF / priority. -/
theorem mem_pendingIdx (s : SchedState) (i : ℕ) :
    i ∈ pendingIdx s ↔ i < s.procs.length ∧ i ∉ s.completed := by
  simp [pendingIdx, List.mem_filter, List.mem_range]

/-- One SJF / priority iteration preserves the loop invariant. -/
theorem schedStep_invariant (key : Process → ℤ) (bs : List ℤ) (s : SchedState)
    (hinv : schedInvariant bs s) : schedInvariant bs (schedStep key s) := by
  obtain ⟨hnd, hrange, hburst, hsum, hfacts⟩ := hinv
  rcases hav : availableIdx s with _ | ⟨i, tl⟩
  · -- idle jump: only the time changes
    simp only [schedStep, hav]
    exact ⟨hnd, hrange, hburst, hsum, hfacts⟩
  · -- dispatch: run the selected process to completion
    have hselmem : reduceFirstMin key s.procs i tl ∈ availableIdx s := by
      obtain ⟨l1, l2, hsplit, -, -⟩ := reduceFirstMin_spec key s.procs tl i
      rw [hav, hsplit]
      exact List.mem_append.2 (Or.inr (List.mem_cons_self _ _))
    set sel := reduceFirstMin key s.procs i tl with hseldef
    obtain ⟨hsellt, hselarr, hselnot⟩ := (mem_availableIdx s sel).1 hselmem
    have hstep : schedStep key s =
        { procs := s.procs.set sel
            { procAt s.procs sel with
                completion_time := some (s.time + (procAt s.procs sel).burst_time)
                turnaround_time := some (s.time + (procAt s.procs sel).burst_time -
                  (procAt s.procs sel).arrival_time)
                waiting_time := some (s.time + (procAt s.procs sel).burst_time -
                  (procAt s.procs sel).arrival_time -
                  (procAt s.procs sel).burst_time) }
          completed := s.completed ++ [sel]
          time := s.time + (procAt s.procs sel).burst_time
          timeline := s.timeline ++ [⟨(procAt s.procs sel).pid, s.time,
            s.time + (procAt s.procs sel).burst_time,
            (procAt s.procs sel).burst_time⟩] } := by
      simp only [schedStep, hav]
    rw [hstep]
    refine ⟨?_, ?_, ?_, ?_, ?_⟩
    · -- no duplicates in the completed list
      simp only [List.nodup_append, List.nodup_cons, List.nodup_nil]
      exact ⟨hnd, ⟨by simp, trivial⟩, by
        intro a ha hb
        rcases List.mem_singleton.1 hb with rfl
        exact hselnot ha⟩
    · -- completed indices stay in range
      intro j hj
      rw [List.length_set]
      rcases List.mem_append.1 hj with hj | hj
      · exact hrange j hj
      · rcases List.mem_singleton.1 hj with rfl
        exact hsellt
    · -- burst times unchanged
      rw [List.map_set, ← hburst]
      have hlt : sel < (s.procs.map fun p : Process => p.burst_time).length := by
        simpa using hsellt
      have hval : (procAt s.procs sel).burst_time =
          (s.procs.map fun p : Process => p.burst_time)[sel] := by
        rw [List.getElem_map, procAt, List.getD_eq_getElem _ _ hsellt]
      show (s.procs.map fun p : Process => p.burst_time).set sel
          (procAt s.procs sel).burst_time = _
      rw [hval]
      refine List.ext_getElem (by simp) ?_
      intro n h1 h2
      by_cases hn : sel = n
      · subst hn; simp [List.getElem_set]
      · simp [List.getElem_set, hn]
    · -- durations sum to completed bursts
      rw [sumDur_append, List.map_append, List.sum_append, hsum]
      have hsame : ∀ j ∈ s.completed,
          (procAt (s.procs.set sel
            { procAt s.procs sel with
                completion_time := some (s.time + (procAt s.procs sel).burst_time)
                turnaround_time := some (s.time + (procAt s.procs sel).burst_time -
                  (procAt s.procs sel).arrival_time)
                waiting_time := some (s.time + (procAt s.procs sel).burst_time -
                  (procAt s.procs sel).arrival_time -
                  (procAt s.procs sel).burst_time) }) j).burst_time =
          (procAt s.procs j).burst_time := by
        intro j hj
        rw [procAt_set_ne _ _ _ _ (fun h => hselnot (by rw [h]; exact hj))]
      rw [List.map_congr_left (fun j hj => hsame j hj)]
      simp only [List.map_cons, List.map_nil, List.sum_cons, List.sum_nil]
      rw [procAt_set_self _ _ _ hsellt]
      simp
    · -- completion facts
      intro j hj c hc
      rcases List.mem_append.1 hj with hj | hj
      · have hne : sel ≠ j := fun h => hselnot (by rw [h]; exact hj)
        rw [procAt_set_ne _ _ _ _ hne] at hc ⊢
        exact hfacts j hj c hc
      · rcases List.mem_singleton.1 hj with rfl
        rw [procAt_set_self _ _ _ hsellt] at hc ⊢
        simp only at hc
        rcases Option.some.inj hc with rfl
        refine ⟨rfl, rfl, ?_⟩
        simp only
        omega

/-- The SJF / priority loop propagates the invariant to the final state,
which satisfies the negated loop condition. -/
theorem schedRun_invariant (key : Process → ℤ) (bs : List ℤ) :
    ∀ (fuel : ℕ) (s s' : SchedState), schedRun key fuel s = some s' →
      schedInvariant bs s →
      schedInvariant bs s' ∧ ¬(s'.completed.length < s'.procs.length) := by
  intro fuel
  induction fuel with
  | zero =>
      intro s s' hrun hinv
      by_cases hc : s.completed.length < s.procs.length
      · simp [schedRun, hc] at hrun
      · simp [schedRun, hc] at hrun
        exact hrun ▸ ⟨hinv, hc⟩
  | succ f ih =>
      intro s s' hrun hinv
      by_cases hc : s.completed.length < s.procs.length
      · simp only [schedRun, hc, if_true] at hrun
        exact ih (schedStep key s) s' hrun (schedStep_invariant key bs s hinv)
      · simp [schedRun, hc] at hrun
        exact hrun ▸ ⟨hinv, hc⟩

/-- At the end of the SJF / priority loop the completed-index list is a
permutation of all indices. -/
theorem schedRun_completed_perm (bs : List ℤ) (s' : SchedState)
    (hinv : schedInvariant bs s')
    (hdone : ¬(s'.completed.length < s'.procs.length)) :
    s'.completed.Perm (List.range s'.procs.length) := by
  obtain ⟨hnd, hrange, -, -, -⟩ := hinv
  have hsub : s'.completed.Subperm (List.range s'.procs.length) :=
    hnd.subperm fun i hi => List.mem_range.2 (hrange i hi)
  refine hsub.perm_of_length_le ?_
  rw [List.length_range]
  omega

/-- Every process in the completed list of a finished SJF / priority run
has consistent completion fields. -/
theorem schedRun_completed_facts (key : Process → ℤ) (fuel : ℕ)
    (ps : List Process) (s' : SchedState)
    (hrun : schedRun key fuel (initSchedState ps) = some s') :
    ∀ p ∈ schedCompleted s', ∀ c, p.completion_time = some c →
      p.turnaround_time = some (c - p.arrival_time) ∧
      p.waiting_time = some (c - p.arrival_time - p.burst_time) ∧
      p.arrival_time + p.burst_time ≤ c := by
  have hinit : schedInvariant (ps.map fun p => p.burst_time) (initSchedState ps) := by
    refine ⟨List.nodup_nil, by simp [initSchedState], rfl,
      by simp [initSchedState, sumDur], by simp [initSchedState]⟩
  obtain ⟨⟨-, -, -, -, hfacts⟩, -⟩ :=
    schedRun_invariant key (ps.map fun p => p.burst_time) fuel _ s' hrun hinit
  intro p hp c hc
  obtain ⟨i, hi, rfl⟩ := List.mem_map.1 hp
  exact hfacts i hi c hc

/-- The timeline of a finished SJF / priority run accounts for exactly the
sum of all burst times. -/
theorem schedRun_sumDur (key : Process → ℤ) (fuel : ℕ) (ps : List Process)
    (s' : SchedState) (hrun : schedRun key fuel (initSchedState ps) = some s') :
    sumDur s'.timeline = sumBurst ps := by
  have hinit : schedInvariant (ps.map fun p => p.burst_time) (initSchedState ps) := by
    refine ⟨List.nodup_nil, by simp [initSchedState], rfl,
      by simp [initSchedState, sumDur], by simp [initSchedState]⟩
  obtain ⟨hinv, hdone⟩ :=
    schedRun_invariant key (ps.map fun p => p.burst_time) fuel _ s' hrun hinit
  have hperm := schedRun_completed_perm _ s' hinv hdone
  obtain ⟨-, -, hburst, hsum, -⟩ := hinv
  rw [hsum]
  have h1 : (s'.completed.map fun i => (procAt s'.procs i).burst_time).Perm
      ((List.range s'.procs.length).map fun i => (procAt s'.procs i).burst_time) :=
    hperm.map _
  rw [h1.sum_eq]
  have h2 : ((List.range s'.procs.length).map fun i =>
      (procAt s'.procs i).burst_time) =
      ((List.range s'.procs.length).map (procAt s'.procs)).map
        fun p => p.burst_time := by
    rw [List.map_map]; rfl
  rw [h2, procAt_range, hburst]
  rfl

/-- Every record in the completed list of FCFS has consistent completion
fields (completion = max(current, arrival) + burst, turnaround =
completion − arrival, waiting = turnaround − burst ≥ 0). -/
theorem fcfsGo_mem_facts (l : List Process) : ∀ (t : ℤ) (p : Process),
    p ∈ (fcfsGo t l).2 → ∀ c, p.completion_time = some c →
      p.turnaround_time = some (c - p.arrival_time) ∧
      p.waiting_time = some (c - p.arrival_time - p.burst_time) ∧
      p.arrival_time + p.burst_time ≤ c := by
  induction l with
  | nil => intro t p hp; simp [fcfsGo] at hp
  | cons q rest ih =>
      intro t p hp c hc
      rw [fcfsGo_cons] at hp
      rcases List.mem_cons.1 hp with rfl | hp
      · simp only at hc
        rcases Option.some.inj hc with rfl
        refine ⟨rfl, rfl, ?_⟩
        simp only
        have := le_max_right t q.arrival_time
        omega
      · exact ih _ p hp c hc

/-- The FCFS timeline durations sum to the bursts of the processed list. -/
theorem fcfsGo_sumDur (l : List Process) : ∀ t : ℤ,
    sumDur (fcfsGo t l).1 = sumBurst l := by
  induction l with
  | nil => intro t; simp [fcfsGo, sumDur, sumBurst]
  | cons q rest ih =>
      intro t
      rw [fcfsGo_cons]
      simp only [sumDur, sumBurst, List.map_cons, List.sum_cons] at ih ⊢
      rw [ih]

/-- Reading a mapped process list at an in-range index. -/
theorem procAt_map (g : Process → Process) (l : List Process) (i : ℕ)
    (h : i < l.length) : procAt (l.map g) i = g (procAt l i) := by
  rw [procAt, procAt, List.getD_eq_getElem _ _ (by simpa using h),
    List.getD_eq_getElem _ _ h, List.getElem_map]

/-- Overwriting an entry with one of equal `f`-value leaves a mapped list
unchanged. -/
theorem map_set_same (l : List Process) (i : ℕ) (p : Process) (f : Process → ℤ)
    (h : i < l.length) (hf : f p = f (procAt l i)) :
    (l.set i p).map f = l.map f := by
  rw [List.map_set, hf]
  have hlen : i < (l.map f).length := by simpa using h
  have hval : f (procAt l i) = (l.map f)[i] := by
    rw [List.getElem_map, procAt, List.getD_eq_getElem _ _ h]
  rw [hval]
  refine List.ext_getElem (by simp) ?_
  intro n h1 h2
  by_cases hn : i = n
  · subst hn; simp [List.getElem_set]
  · simp [List.getElem_set, hn]

/-- Queue membership after the round-robin enqueue pass. -/
theorem mem_rrEnqueue (s : RRState) (i : ℕ) :
    i ∈ (rrEnqueue s).queue ↔ i ∈ s.queue ∨
      (i < s.procs.length ∧ (procAt s.procs i).arrival_time ≤ s.time ∧
        0 < (procAt s.procs i).remaining_time ∧ i ∉ s.queue) := by
  simp [rrEnqueue, List.mem_append, List.mem_filter, List.mem_range, and_assoc]

/-- The enqueue pass preserves the round-robin invariant. -/
theorem rrEnqueue_invariant (bs : List ℤ) (s : RRState)
    (hinv : rrInvariant bs s) : rrInvariant bs (rrEnqueue s) := by
  obtain ⟨hnd, hq, hB, hC, hD, hst, hsum⟩ := hinv
  have hprocs : (rrEnqueue s).procs = s.procs := rfl
  have htime : (rrEnqueue s).time = s.time := rfl
  have htl : (rrEnqueue s).timeline = s.timeline := rfl
  refine ⟨?_, ?_, ?_, ?_, ?_, ?_, ?_⟩
  · refine List.Nodup.append hnd ((List.nodup_range _).filter _) ?_
    intro a ha hb
    rw [List.mem_filter] at hb
    have hnotmem : a ∉ s.queue := by
      have hcond := hb.2
      simp only [Bool.and_eq_true, Bool.not_eq_true', decide_eq_true_eq] at hcond
      simpa using hcond.2
    exact hnotmem ha
  · intro i hi
    rcases (mem_rrEnqueue s i).1 hi with hi | ⟨h1, h2, h3, -⟩
    · exact hq i hi
    · exact ⟨h1, h2, h3⟩
  · exact hB
  · exact hC
  · exact hD
  · exact hst
  · exact hsum

/-- The dispatch-or-idle-jump part of a round-robin iteration preserves
the invariant (for a positive quantum). -/
theorem rrDispatch_invariant (q : ℤ) (bs : List ℤ) (s : RRState) (hq : 0 < q)
    (hinv : rrInvariant bs s) : rrInvariant bs (rrDispatch q s) := by
  obtain ⟨hnd, hA, hB, hC, hD, hst, hsum⟩ := hinv
  rcases hqe : s.queue with _ | ⟨i, rest⟩
  · -- empty queue: idle jump (or no-op)
    rcases hc : (s.procs.filter fun p =>
        decide (s.time < p.arrival_time) && decide (0 < p.remaining_time)).map
          (fun p => p.arrival_time) with _ | ⟨a, tlc⟩
    · have hstep : rrDispatch q s = s := by
        simp only [rrDispatch, hqe, hc]
      rw [hstep]
      exact ⟨hnd, hA, hB, hC, hD, hst, hsum⟩
    · have hstep : rrDispatch q s = { s with time := tlc.foldl min a } := by
        simp only [rrDispatch, hqe, hc]
      have htle : s.time ≤ tlc.foldl min a := by
        have hmem : ∀ x ∈ a :: tlc, s.time < x := by
          intro x hx
          rw [← hc] at hx
          obtain ⟨p, hpmem, rfl⟩ := List.mem_map.1 hx
          rw [List.mem_filter] at hpmem
          have hcond := hpmem.2
          simp only [Bool.and_eq_true, decide_eq_true_eq] at hcond
          exact hcond.1
        obtain ⟨⟨hla, hltl⟩, hattain⟩ := foldl_min_spec tlc a
        rcases hattain with heq | hmemf
        · rw [heq]; exact le_of_lt (hmem a (List.mem_cons_self _ _))
        · exact le_of_lt (hmem _ (List.mem_cons_of_mem _ hmemf))
      rw [hstep]
      refine ⟨hnd, ?_, hB, ?_, hD, hst, hsum⟩
      · intro j hj
        obtain ⟨h1, h2, h3⟩ := hA j hj
        exact ⟨h1, h2.trans htle, h3⟩
      · intro p hp hlt
        exact (hC p hp hlt).trans htle
  · -- dispatch the queue head
    obtain ⟨hilt, hiarr, hirpos⟩ := hA i (by rw [hqe]; exact List.mem_cons_self _ _)
    have hinrest : i ∉ rest := by
      have h := hnd; rw [hqe] at h; exact (List.nodup_cons.1 h).1
    have hrestnd : rest.Nodup := by
      have h := hnd; rw [hqe] at h; exact (List.nodup_cons.1 h).2
    have hepos : 0 < min q (procAt s.procs i).remaining_time := lt_min hq hirpos
    have heler : min q (procAt s.procs i).remaining_time ≤
        (procAt s.procs i).remaining_time := min_le_right _ _
    have hrle : (procAt s.procs i).remaining_time ≤
        (procAt s.procs i).burst_time := (hB _ (procAt_mem _ _ hilt)).2.1
    have hbpos : 0 < (procAt s.procs i).burst_time :=
      (hB _ (procAt_mem _ _ hilt)).2.2
    have hCb : (procAt s.procs i).remaining_time < (procAt s.procs i).burst_time →
        (procAt s.procs i).arrival_time + ((procAt s.procs i).burst_time -
          (procAt s.procs i).remaining_time) ≤ s.time :=
      hC _ (procAt_mem _ _ hilt)
    by_cases hr : (procAt s.procs i).remaining_time -
        min q (procAt s.procs i).remaining_time = 0
    · -- the process finishes
      have hemin : min q (procAt s.procs i).remaining_time =
          (procAt s.procs i).remaining_time := by omega
      have hstep : rrDispatch q s =
          { procs := s.procs.set i
              { procAt s.procs i with
                  remaining_time := 0
                  completion_time := some (s.time +
                    min q (procAt s.procs i).remaining_time)
                  turnaround_time := some (s.time +
                    min q (procAt s.procs i).remaining_time -
                    (procAt s.procs i).arrival_time)
                  waiting_time := some (s.time +
                    min q (procAt s.procs i).remaining_time -
                    (procAt s.procs i).arrival_time -
                    (procAt s.procs i).burst_time) }
            queue := rest
            time := s.time + min q (procAt s.procs i).remaining_time
            timeline := s.timeline ++ [⟨(procAt s.procs i).pid, s.time,
              s.time + min q (procAt s.procs i).remaining_time,
              min q (procAt s.procs i).remaining_time⟩] } := by
        simp only [rrDispatch, hqe]
        rw [if_pos hr]
      rw [hstep]
      have hbound : (procAt s.procs i).arrival_time +
          (procAt s.procs i).burst_time ≤
          s.time + min q (procAt s.procs i).remaining_time := by
        rcases lt_or_eq_of_le hrle with h | h
        · have := hCb h; omega
        · omega
      refine ⟨hrestnd, ?_, ?_, ?_, ?_, ?_, ?_⟩
      · -- queue facts
        intro j hj
        have hji : i ≠ j := fun h => hinrest (h ▸ hj)
        obtain ⟨h1, h2, h3⟩ := hA j (by rw [hqe]; exact List.mem_cons_of_mem _ hj)
        rw [procAt_set_ne _ _ _ _ hji]
        exact ⟨by rw [List.length_set]; exact h1, by dsimp only; omega, h3⟩
      · -- remaining-time bounds
        intro p' hp'
        rcases List.mem_or_eq_of_mem_set hp' with hold | rfl
        · exact hB p' hold
        · exact ⟨le_refl 0, by dsimp only; omega, by dsimp only; omega⟩
      · -- executed-work bound
        intro p' hp' hlt
        rcases List.mem_or_eq_of_mem_set hp' with hold | rfl
        · have := hC p' hold hlt; dsimp only; omega
        · dsimp only at hlt ⊢
          omega
      · -- completion facts
        intro p' hp' hrem c hc
        rcases List.mem_or_eq_of_mem_set hp' with hold | rfl
        · obtain ⟨h1, h2, h3⟩ := hD p' hold hrem c hc
          exact ⟨h1, h2, h3⟩
        · have hc' : some (s.time + min q (procAt s.procs i).remaining_time) =
              some c := hc
          rcases Option.some.inj hc' with rfl
          exact ⟨rfl, rfl, hbound⟩
      · -- burst times unchanged
        exact Eq.trans (map_set_same s.procs i _ _ hilt rfl) hst
      · -- durations account for executed work
        dsimp only
        rw [sumDur_append, map_sum_set _ _ _ _ hilt, hsum]
        dsimp only
        omega
    · -- the process is preempted and re-queued
      have hrpos' : 0 < (procAt s.procs i).remaining_time -
          min q (procAt s.procs i).remaining_time := by omega
      have hstep : rrDispatch q s =
          { procs := s.procs.set i
              { procAt s.procs i with
                  remaining_time := (procAt s.procs i).remaining_time -
                    min q (procAt s.procs i).remaining_time }
            queue := rest ++ [i]
            time := s.time + min q (procAt s.procs i).remaining_time
            timeline := s.timeline ++ [⟨(procAt s.procs i).pid, s.time,
              s.time + min q (procAt s.procs i).remaining_time,
              min q (procAt s.procs i).remaining_time⟩] } := by
        simp only [rrDispatch, hqe]
        rw [if_neg hr]
      rw [hstep]
      refine ⟨?_, ?_, ?_, ?_, ?_, ?_, ?_⟩
      · -- queue still duplicate-free
        refine List.Nodup.append hrestnd (List.nodup_singleton i) ?_
        intro a ha hb
        rcases List.mem_singleton.1 hb with rfl
        exact hinrest ha
      · -- queue facts
        intro j hj
        rcases List.mem_append.1 hj with hj | hj
        · have hji : i ≠ j := fun h => hinrest (h ▸ hj)
          obtain ⟨h1, h2, h3⟩ := hA j (by rw [hqe]; exact List.mem_cons_of_mem _ hj)
          rw [procAt_set_ne _ _ _ _ hji]
          exact ⟨by rw [List.length_set]; exact h1, by dsimp only; omega, h3⟩
        · rcases List.mem_singleton.1 hj with rfl
          rw [procAt_set_self _ _ _ hilt]
          refine ⟨by rw [List.length_set]; exact hilt, ?_, ?_⟩
          · dsimp only; omega
          · dsimp only; omega
      · -- remaining-time bounds
        intro p' hp'
        rcases List.mem_or_eq_of_mem_set hp' with hold | rfl
        · exact hB p' hold
        · exact ⟨by dsimp only; omega, by dsimp only; omega, by dsimp only; omega⟩
      · -- executed-work bound
        intro p' hp' hlt
        rcases List.mem_or_eq_of_mem_set hp' with hold | rfl
        · have := hC p' hold hlt; dsimp only; omega
        · simp only at hlt ⊢
          rcases lt_or_eq_of_le hrle with h | h
          · have := hCb h; omega
          · omega
      · -- completion facts
        intro p' hp' hrem c hc
        rcases List.mem_or_eq_of_mem_set hp' with hold | rfl
        · exact hD p' hold hrem c hc
        · dsimp only at hrem
          omega
      · -- burst times unchanged
        exact Eq.trans (map_set_same s.procs i _ _ hilt rfl) hst
      · -- durations account for executed work
        dsimp only
        rw [sumDur_append, map_sum_set _ _ _ _ hilt, hsum]
        dsimp only
        omega

/-- One full round-robin iteration preserves the invariant. -/
theorem rrStep_invariant (q : ℤ) (bs : List ℤ) (s : RRState) (hq : 0 < q)
    (hinv : rrInvariant bs s) : rrInvariant bs (rrStep q s) :=
  rrDispatch_invariant q bs (rrEnqueue s) hq (rrEnqueue_invariant bs s hinv)

/-- The round-robin loop propagates the invariant to the final state,
which satisfies the negated loop condition. -/
theorem rrLoop_invariant (q : ℤ) (bs : List ℤ) (hq : 0 < q) :
    ∀ (fuel : ℕ) (s s' : RRState), rrLoop q fuel s = some s' →
      rrInvariant bs s → rrInvariant bs s' ∧ rrCond s' = false := by
  intro fuel
  induction fuel with
  | zero =>
      intro s s' hrun hinv
      by_cases hc : rrCond s
      · simp [rrLoop, hc] at hrun
      · simp [rrLoop, hc] at hrun
        exact hrun ▸ ⟨hinv, Bool.eq_false_iff.2 hc⟩
  | succ f ih =>
      intro s s' hrun hinv
      by_cases hc : rrCond s
      · simp only [rrLoop, hc, if_true] at hrun
        exact ih (rrStep q s) s' hrun (rrStep_invariant q bs s hq hinv)
      · simp [rrLoop, hc] at hrun
        exact hrun ▸ ⟨hinv, Bool.eq_false_iff.2 hc⟩

/-- The initial round-robin state satisfies the invariant when every burst
time is positive. -/
theorem rrInit_invariant (ps : List Process)
    (hb : ∀ p ∈ ps, 0 < p.burst_time) :
    rrInvariant (ps.map fun p => p.burst_time) (rrInit ps) := by
  have hproc : (rrInit ps).procs =
      ps.map fun p => { p with remaining_time := p.burst_time } := rfl
  have hmem : ∀ p' ∈ (rrInit ps).procs,
      p'.remaining_time = p'.burst_time ∧ 0 < p'.burst_time := by
    intro p' hp'
    rw [hproc] at hp'
    obtain ⟨p, hp, rfl⟩ := List.mem_map.1 hp'
    exact ⟨rfl, hb p hp⟩
  refine ⟨?_, ?_, ?_, ?_, ?_, ?_, ?_⟩
  · exact (List.nodup_range _).filter _
  · intro i hi
    rw [rrInit, List.mem_filter] at hi
    obtain ⟨hir, hcond⟩ := hi
    rw [List.mem_range] at hir
    simp only [decide_eq_true_eq] at hcond
    have hlt : i < (rrInit ps).procs.length := by
      rw [hproc, List.length_map]
      simpa using hir
    obtain ⟨hrb, hbpos⟩ := hmem _ (procAt_mem _ _ hlt)
    exact ⟨hlt, le_of_eq hcond, by rw [hrb]; exact hbpos⟩
  · intro p hp
    obtain ⟨hrb, hbpos⟩ := hmem p hp
    exact ⟨by omega, by omega, hbpos⟩
  · intro p hp hlt
    obtain ⟨hrb, -⟩ := hmem p hp
    omega
  · intro p hp hrem
    obtain ⟨hrb, hbpos⟩ := hmem p hp
    omega
  · rw [hproc, List.map_map]
    rfl
  · have : ∀ x ∈ (rrInit ps).procs.map
        (fun p => p.burst_time - p.remaining_time), x = 0 := by
      intro x hx
      obtain ⟨p, hp, rfl⟩ := List.mem_map.1 hx
      obtain ⟨hrb, -⟩ := hmem p hp
      omega
    rw [List.sum_eq_zero this]
    simp [rrInit, sumDur]

/-- At the end of the round-robin loop every process has zero remaining
time, and all completion fields are consistent. -/
theorem rrLoop_final_facts (q : ℤ) (fuel : ℕ) (ps : List Process)
    (s' : RRState) (hq : 0 < q) (hb : ∀ p ∈ ps, 0 < p.burst_time)
    (hrun : rrLoop q fuel (rrInit ps) = some s') :
    (∀ p ∈ s'.procs, p.remaining_time = 0) ∧
    (∀ p ∈ s'.procs, ∀ c, p.completion_time = some c →
      p.turnaround_time = some (c - p.arrival_time) ∧
      p.waiting_time = some (c - p.arrival_time - p.burst_time) ∧
      p.arrival_time + p.burst_time ≤ c) ∧
    sumDur s'.timeline = sumBurst ps := by
  obtain ⟨⟨-, -, hB, -, hD, hst, hsum⟩, hstop⟩ :=
    rrLoop_invariant q (ps.map fun p => p.burst_time) hq fuel _ s' hrun
      (rrInit_invariant ps hb)
  have hallzero : ∀ p ∈ s'.procs, p.remaining_time = 0 := by
    intro p hp
    have hnot : ¬ 0 < p.remaining_time := by
      intro hpos
      have : s'.procs.any (fun p => decide (0 < p.remaining_time)) = true :=
        List.any_eq_true.2 ⟨p, hp, by simpa using hpos⟩
      rw [rrCond, this, Bool.or_true] at hstop
      simp at hstop
    have := (hB p hp).1
    omega
  refine ⟨hallzero, ?_, ?_⟩
  · intro p hp c hc
    exact hD p hp (hallzero p hp) c hc
  · rw [hsum]
    have hcongr : s'.procs.map (fun p => p.burst_time - p.remaining_time) =
        s'.procs.map (fun p => p.burst_time) := by
      refine List.map_congr_left ?_
      intro p hp
      rw [hallzero p hp]
      ring
    rw [hcongr, hst]
    rw [sumBurst]

/-- C4: for every process list with non-negative arrivals and positive
bursts (and a positive quantum for Round Robin), every process completed
by `fcfsScheduling`, `sjfScheduling`, `roundRobinScheduling` or
`priorityScheduling` satisfies `completion ≥ arrival + burst`,
`turnaround = completion − arrival`, `waiting = turnaround − burst` and
`waiting ≥ 0`. -/
theorem completed_process_invariants (ps : List Process) (q : ℤ) (fuel : ℕ)
    (hvalid : ∀ p ∈ ps, 0 ≤ p.arrival_time ∧ 0 < p.burst_time) (hq : 0 < q)
    (r1 r2 r3 r4 : SchedResult)
    (h1 : fcfsScheduling ps = r1) (h2 : sjfScheduling fuel ps = some r2)
    (h3 : roundRobinScheduling fuel ps q = some r3)
    (h4 : priorityScheduling fuel ps = some r4)
    (p1 p2 p3 p4 : Process) (c1 c2 c3 c4 : ℤ)
    (hm1 : p1 ∈ r1.completed) (hc1 : p1.completion_time = some c1)
    (hm2 : p2 ∈ r2.completed) (hc2 : p2.completion_time = some c2)
    (hm3 : p3 ∈ r3.completed) (hc3 : p3.completion_time = some c3)
    (hm4 : p4 ∈ r4.completed) (hc4 : p4.completion_time = some c4) :
    (p1.turnaround_time = some (c1 - p1.arrival_time) ∧
      p1.waiting_time = some (c1 - p1.arrival_time - p1.burst_time) ∧
      p1.arrival_time + p1.burst_time ≤ c1 ∧
      0 ≤ c1 - p1.arrival_time - p1.burst_time) ∧
    (p2.turnaround_time = some (c2 - p2.arrival_time) ∧
      p2.waiting_time = some (c2 - p2.arrival_time - p2.burst_time) ∧
      p2.arrival_time + p2.burst_time ≤ c2 ∧
      0 ≤ c2 - p2.arrival_time - p2.burst_time) ∧
    (p3.turnaround_time = some (c3 - p3.arrival_time) ∧
      p3.waiting_time = some (c3 - p3.arrival_time - p3.burst_time) ∧
      p3.arrival_time + p3.burst_time ≤ c3 ∧
      0 ≤ c3 - p3.arrival_time - p3.burst_time) ∧
    (p4.turnaround_time = some (c4 - p4.arrival_time) ∧
      p4.waiting_time = some (c4 - p4.arrival_time - p4.burst_time) ∧
      p4.arrival_time + p4.burst_time ≤ c4 ∧
      0 ≤ c4 - p4.arrival_time - p4.burst_time) := by
  have hb : ∀ p ∈ ps, 0 < p.burst_time := fun p hp => (hvalid p hp).2
  refine ⟨?_, ?_, ?_, ?_⟩
  · subst h1
    obtain ⟨ht, hw, hbnd⟩ := fcfsGo_mem_facts (fcfsSort ps) 0 p1 hm1 c1 hc1
    exact ⟨ht, hw, hbnd, by omega⟩
  · obtain ⟨s', hrun, hres⟩ := Option.map_eq_some'.1 h2
    rw [← hres] at hm2
    obtain ⟨ht, hw, hbnd⟩ :=
      schedRun_completed_facts (fun p => p.burst_time) fuel ps s' hrun p2 hm2 c2 hc2
    exact ⟨ht, hw, hbnd, by omega⟩
  · obtain ⟨s', hrun, hres⟩ := Option.map_eq_some'.1 h3
    rw [← hres] at hm3
    obtain ⟨ht, hw, hbnd⟩ :=
      (rrLoop_final_facts q fuel ps s' hq hb hrun).2.1 p3 hm3 c3 hc3
    exact ⟨ht, hw, hbnd, by omega⟩
  · obtain ⟨s', hrun, hres⟩ := Option.map_eq_some'.1 h4
    rw [← hres] at hm4
    obtain ⟨ht, hw, hbnd⟩ :=
      schedRun_completed_facts (fun p => p.priority) fuel ps s' hrun p4 hm4 c4 hc4
    exact ⟨ht, hw, hbnd, by omega⟩

/-- C4 (witness): a concrete two-process run of all four schedulers. -/
theorem completed_process_invariants_witness :
    ((Process.turnaround_time ⟨1, 0, 2, 1, 2, some 2, some 2, some 0⟩ =
        some (2 - 0) ∧
      Process.waiting_time ⟨1, 0, 2, 1, 2, some 2, some 2, some 0⟩ =
        some (2 - 0 - 2) ∧
      (0 : ℤ) + 2 ≤ 2 ∧ (0 : ℤ) ≤ 2 - 0 - 2) ∧
    (Process.turnaround_time ⟨2, 1, 1, 2, 1, some 3, some 2, some 1⟩ =
        some (3 - 1) ∧
      Process.waiting_time ⟨2, 1, 1, 2, 1, some 3, some 2, some 1⟩ =
        some (3 - 1 - 1) ∧
      (1 : ℤ) + 1 ≤ 3 ∧ (0 : ℤ) ≤ 3 - 1 - 1) ∧
    (Process.turnaround_time ⟨1, 0, 2, 1, 0, some 2, some 2, some 0⟩ =
        some (2 - 0) ∧
      Process.waiting_time ⟨1, 0, 2, 1, 0, some 2, some 2, some 0⟩ =
        some (2 - 0 - 2) ∧
      (0 : ℤ) + 2 ≤ 2 ∧ (0 : ℤ) ≤ 2 - 0 - 2) ∧
    (Process.turnaround_time ⟨2, 1, 1, 2, 1, some 3, some 2, some 1⟩ =
        some (3 - 1) ∧
      Process.waiting_time ⟨2, 1, 1, 2, 1, some 3, some 2, some 1⟩ =
        some (3 - 1 - 1) ∧
      (1 : ℤ) + 1 ≤ 3 ∧ (0 : ℤ) ≤ 3 - 1 - 1)) := by
  have hmain := completed_process_invariants
    [⟨1, 0, 2, 1, 2, none, none, none⟩, ⟨2, 1, 1, 2, 1, none, none, none⟩] 1 10
    (by decide) (by decide)
    ⟨[⟨1, 0, 2, 2⟩, ⟨2, 2, 3, 1⟩],
      [⟨1, 0, 2, 1, 2, some 2, some 2, some 0⟩,
        ⟨2, 1, 1, 2, 1, some 3, some 2, some 1⟩],
      calculateStatistics [⟨1, 0, 2, 1, 2, some 2, some 2, some 0⟩,
        ⟨2, 1, 1, 2, 1, some 3, some 2, some 1⟩]⟩
    ⟨[⟨1, 0, 2, 2⟩, ⟨2, 2, 3, 1⟩],
      [⟨1, 0, 2, 1, 2, some 2, some 2, some 0⟩,
        ⟨2, 1, 1, 2, 1, some 3, some 2, some 1⟩],
      calculateStatistics [⟨1, 0, 2, 1, 2, some 2, some 2, some 0⟩,
        ⟨2, 1, 1, 2, 1, some 3, some 2, some 1⟩]⟩
    ⟨[⟨1, 0, 1, 1⟩, ⟨1, 1, 2, 1⟩, ⟨2, 2, 3, 1⟩],
      [⟨1, 0, 2, 1, 0, some 2, some 2, some 0⟩,
        ⟨2, 1, 1, 2, 0, some 3, some 2, some 1⟩],
      calculateStatistics [⟨1, 0, 2, 1, 0, some 2, some 2, some 0⟩,
        ⟨2, 1, 1, 2, 0, some 3, some 2, some 1⟩]⟩
    ⟨[⟨1, 0, 2, 2⟩, ⟨2, 2, 3, 1⟩],
      [⟨1, 0, 2, 1, 2, some 2, some 2, some 0⟩,
        ⟨2, 1, 1, 2, 1, some 3, some 2, some 1⟩],
      calculateStatistics [⟨1, 0, 2, 1, 2, some 2, some 2, some 0⟩,
        ⟨2, 1, 1, 2, 1, some 3, some 2, some 1⟩]⟩
    rfl rfl rfl rfl
    ⟨1, 0, 2, 1, 2, some 2, some 2, some 0⟩
    ⟨2, 1, 1, 2, 1, some 3, some 2, some 1⟩
    ⟨1, 0, 2, 1, 0, some 2, some 2, some 0⟩
    ⟨2, 1, 1, 2, 1, some 3, some 2, some 1⟩
    2 3 2 3
    (by decide) (by decide) (by decide) (by decide)
    (by decide) (by decide) (by decide) (by decide)
  exact hmain

/-- C7: for every process list with positive bursts (and positive quantum
for Round Robin), the durations of the timeline segments produced by each
of the four schedulers sum to the total of the burst times. -/
theorem timeline_durations_sum (ps : List Process) (q : ℤ) (fuel : ℕ)
    (hb : ∀ p ∈ ps, 0 < p.burst_time) (hq : 0 < q) :
    sumDur (fcfsScheduling ps).timeline = sumBurst ps ∧
    (∀ r, sjfScheduling fuel ps = some r → sumDur r.timeline = sumBurst ps) ∧
    (∀ r, roundRobinScheduling fuel ps q = some r →
      sumDur r.timeline = sumBurst ps) ∧
    (∀ r, priorityScheduling fuel ps = some r →
      sumDur r.timeline = sumBurst ps) := by
  refine ⟨?_, ?_, ?_, ?_⟩
  · have h := fcfsGo_sumDur (fcfsSort ps) 0
    have hperm : ((fcfsSort ps).map fun p => p.burst_time).Perm
        (ps.map fun p => p.burst_time) := (List.perm_insertionSort fcfsRel ps).map _
    have : sumBurst (fcfsSort ps) = sumBurst ps := hperm.sum_eq
    exact this ▸ h
  · intro r hr
    obtain ⟨s', hrun, hres⟩ := Option.map_eq_some'.1 hr
    rw [← hres]
    exact schedRun_sumDur (fun p => p.burst_time) fuel ps s' hrun
  · intro r hr
    obtain ⟨s', hrun, hres⟩ := Option.map_eq_some'.1 hr
    rw [← hres]
    exact (rrLoop_final_facts q fuel ps s' hq hb hrun).2.2
  · intro r hr
    obtain ⟨s', hrun, hres⟩ := Option.map_eq_some'.1 hr
    rw [← hres]
    exact schedRun_sumDur (fun p => p.priority) fuel ps s' hrun

/-- C7 (witness): the concrete two-process run, for FCFS and Round
Robin. -/
theorem timeline_durations_sum_witness :
    sumDur (fcfsScheduling [⟨1, 0, 2, 1, 2, none, none, none⟩,
        ⟨2, 1, 1, 2, 1, none, none, none⟩]).timeline =
      sumBurst [⟨1, 0, 2, 1, 2, none, none, none⟩,
        ⟨2, 1, 1, 2, 1, none, none, none⟩] ∧
    sumDur (⟨[⟨1, 0, 1, 1⟩, ⟨1, 1, 2, 1⟩, ⟨2, 2, 3, 1⟩],
        [⟨1, 0, 2, 1, 0, some 2, some 2, some 0⟩,
          ⟨2, 1, 1, 2, 0, some 3, some 2, some 1⟩],
        calculateStatistics [⟨1, 0, 2, 1, 0, some 2, some 2, some 0⟩,
          ⟨2, 1, 1, 2, 0, some 3, some 2, some 1⟩]⟩ : SchedResult).timeline =
      sumBurst [⟨1, 0, 2, 1, 2, none, none, none⟩,
        ⟨2, 1, 1, 2, 1, none, none, none⟩] := by
  have hmain := timeline_durations_sum
    [⟨1, 0, 2, 1, 2, none, none, none⟩, ⟨2, 1, 1, 2, 1, none, none, none⟩] 1 10
    (by decide) (by decide)
  exact ⟨hmain.1, hmain.2.2.1 _ rfl⟩

/-! ## Claim C8: termination -/

/-- Under the loop invariant the completed list cannot out-grow the
process list. -/
theorem sched_completed_le (bs : List ℤ) (s : SchedState)
    (hinv : schedInvariant bs s) : s.completed.length ≤ s.procs.length := by
  obtain ⟨hnd, hrange, -, -, -⟩ := hinv
  have hsub : s.completed.Subperm (List.range s.procs.length) :=
    hnd.subperm fun i hi => List.mem_range.2 (hrange i hi)
  simpa using hsub.length_le

/-- While processes are pending, the pending list is non-empty. -/
theorem pendingIdx_ne_nil (bs : List ℤ) (s : SchedState)
    (hinv : schedInvariant bs s)
    (hc : s.completed.length < s.procs.length) : pendingIdx s ≠ [] := by
  intro hnil
  have hsub : List.range s.procs.length ⊆ s.completed := by
    intro j hj
    by_contra hnot
    have : j ∈ pendingIdx s :=
      (mem_pendingIdx s j).2 ⟨List.mem_range.1 hj, hnot⟩
    rw [hnil] at this
    exact absurd this (List.not_mem_nil j)
  have := ((List.nodup_range s.procs.length).subperm hsub).length_le
  rw [List.length_range] at this
  omega

/-- After an idle jump some process is available. -/
theorem available_after_jump (bs : List ℤ) (s : SchedState)
    (hinv : schedInvariant bs s)
    (hc : s.completed.length < s.procs.length)
    (hav : availableIdx s = []) :
    availableIdx { s with time := jumpTime s } ≠ [] := by
  have hne := pendingIdx_ne_nil bs s hinv hc
  rcases hmap : (pendingIdx s).map (fun i => (procAt s.procs i).arrival_time)
    with _ | ⟨a, tl⟩
  · exact absurd (List.map_eq_nil_iff.1 hmap) hne
  · have hj : jumpTime s = tl.foldl min a := by simp only [jumpTime, hmap]
    obtain ⟨-, hattain⟩ := foldl_min_spec tl a
    have hmem : jumpTime s ∈ a :: tl := by
      rw [hj]
      rcases hattain with heq | hmem
      · rw [heq]; exact List.mem_cons_self _ _
      · exact List.mem_cons_of_mem _ hmem
    rw [← hmap] at hmem
    obtain ⟨j, hjmem, hjarr⟩ := List.mem_map.1 hmem
    obtain ⟨hjlt, hjnot⟩ := (mem_pendingIdx s j).1 hjmem
    have : j ∈ availableIdx { s with time := jumpTime s } := by
      refine (mem_availableIdx _ j).2 ⟨hjlt, ?_, hjnot⟩
      exact le_of_eq hjarr
    exact List.ne_nil_of_mem this

/-- The idle flag is 0 or 1. -/
theorem sjfIdleFlag_bounds (s : SchedState) :
    0 ≤ sjfIdleFlag s ∧ sjfIdleFlag s ≤ 1 := by
  unfold sjfIdleFlag
  split <;> omega

/-- With enough fuel (any amount above the measure) the SJF / priority
loop reaches its final state. -/
theorem schedRun_terminates (key : Process → ℤ) (bs : List ℤ) :
    ∀ (m : ℕ) (s : SchedState), schedInvariant bs s →
      schedMeasure s < (m : ℤ) → ∃ s', schedRun key m s = some s' := by
  intro m
  induction m with
  | zero =>
      intro s hinv hm
      have hle := sched_completed_le bs s hinv
      have := (sjfIdleFlag_bounds s).1
      unfold schedMeasure at hm
      omega
  | succ f ih =>
      intro s hinv hm
      by_cases hc : s.completed.length < s.procs.length
      · have hinv' := schedStep_invariant key bs s hinv
        have hdec : schedMeasure (schedStep key s) < schedMeasure s := by
          rcases hav : availableIdx s with _ | ⟨i, tl⟩
          · -- idle jump: flag drops from 1 to 0
            have hstep : schedStep key s = { s with time := jumpTime s } := by
              simp only [schedStep, hav]
            have hflag : sjfIdleFlag s = 1 := by
              unfold sjfIdleFlag
              rw [if_pos hav]
            have hflag' : sjfIdleFlag (schedStep key s) = 0 := by
              unfold sjfIdleFlag
              rw [hstep, if_neg (available_after_jump bs s hinv hc hav)]
            unfold schedMeasure
            rw [hstep] at hflag' ⊢
            dsimp only at hflag' ⊢
            omega
          · -- dispatch: one more process completed
            have hstep : (schedStep key s).completed = s.completed ++
                [reduceFirstMin key s.procs i tl] ∧
                (schedStep key s).procs.length = s.procs.length := by
              constructor
              · simp only [schedStep, hav]
              · simp only [schedStep, hav, List.length_set]
            obtain ⟨hcmp, hlen'⟩ := hstep
            have h1 := (sjfIdleFlag_bounds (schedStep key s)).1
            have h2 := (sjfIdleFlag_bounds (schedStep key s)).2
            have h0 := (sjfIdleFlag_bounds s).1
            unfold schedMeasure
            rw [hcmp, hlen']
            simp only [List.length_append, List.length_cons, List.length_nil]
            push_cast
            omega
        obtain ⟨s', hs'⟩ := ih (schedStep key s) hinv' (by omega)
        refine ⟨s', ?_⟩
        simp only [schedRun, hc, if_true]
        exact hs'
      · exact ⟨s, by simp [schedRun, hc]⟩

/-- Outstanding work is non-negative. -/
theorem rrWork_nonneg (s : RRState) : 0 ≤ rrWork s := by
  refine List.sum_nonneg ?_
  intro x hx
  obtain ⟨p, -, rfl⟩ := List.mem_map.1 hx
  exact le_max_right _ _

/-- The zombie count is non-negative. -/
theorem rrZombies_nonneg (s : RRState) : 0 ≤ rrZombies s := by
  unfold rrZombies
  positivity

/-- The idle flag is 0 or 1. -/
theorem rrIdleFlag_bounds (s : RRState) :
    0 ≤ rrIdleFlag s ∧ rrIdleFlag s ≤ 1 := by
  unfold rrIdleFlag
  split <;> omega

/-- The enqueue pass does not change work or zombie count. -/
theorem rrEnqueue_measure_eq (s : RRState) :
    rrWork (rrEnqueue s) = rrWork s ∧ rrZombies (rrEnqueue s) = rrZombies s := by
  refine ⟨rfl, ?_⟩
  unfold rrZombies rrEnqueue
  dsimp only
  rw [List.filter_append]
  have hnil : ((List.range s.procs.length).filter fun i =>
      decide ((procAt s.procs i).arrival_time ≤ s.time) &&
        decide (0 < (procAt s.procs i).remaining_time) &&
          !(s.queue.contains i)).filter
        (fun i => decide ((procAt s.procs i).remaining_time ≤ 0)) = [] := by
    refine List.filter_eq_nil_iff.mpr ?_
    intro a ha
    rw [List.mem_filter] at ha
    have hcond := ha.2
    simp only [Bool.and_eq_true, decide_eq_true_eq] at hcond
    simp only [decide_eq_true_eq]
    omega
  rw [hnil]
  simp

/-- The enqueue pass keeps the queue duplicate-free and in range. -/
theorem rrEnqueue_light (s : RRState) (hnd : s.queue.Nodup)
    (hbound : ∀ i ∈ s.queue, i < s.procs.length) :
    (rrEnqueue s).queue.Nodup ∧
      ∀ i ∈ (rrEnqueue s).queue, i < (rrEnqueue s).procs.length := by
  constructor
  · refine List.Nodup.append hnd ((List.nodup_range _).filter _) ?_
    intro a ha hb
    rw [List.mem_filter] at hb
    have hnotmem : a ∉ s.queue := by
      have hcond := hb.2
      simp only [Bool.and_eq_true, Bool.not_eq_true', decide_eq_true_eq] at hcond
      simpa using hcond.2
    exact hnotmem ha
  · intro i hi
    rcases (mem_rrEnqueue s i).1 hi with hi | ⟨h1, -, -, -⟩
    · exact hbound i hi
    · exact h1

/-- One round-robin iteration keeps the queue duplicate-free and in
range. -/
theorem rrStep_light (q : ℤ) (s : RRState) (hnd : s.queue.Nodup)
    (hbound : ∀ i ∈ s.queue, i < s.procs.length) :
    (rrStep q s).queue.Nodup ∧
      ∀ i ∈ (rrStep q s).queue, i < (rrStep q s).procs.length := by
  obtain ⟨hnd1, hbound1⟩ := rrEnqueue_light s hnd hbound
  unfold rrStep
  rcases hq1 : (rrEnqueue s).queue with _ | ⟨i, rest⟩
  · rcases hc : ((rrEnqueue s).procs.filter fun p =>
        decide ((rrEnqueue s).time < p.arrival_time) &&
          decide (0 < p.remaining_time)).map (fun p => p.arrival_time)
      with _ | ⟨a, tlc⟩
    · have hstep : rrDispatch q (rrEnqueue s) = rrEnqueue s := by
        simp only [rrDispatch, hq1, hc]
      rw [hstep]
      exact ⟨hnd1, hbound1⟩
    · have hstep : rrDispatch q (rrEnqueue s) =
          { rrEnqueue s with time := tlc.foldl min a } := by
        simp only [rrDispatch, hq1, hc]
      rw [hstep]
      exact ⟨hnd1, fun j hj => hbound1 j hj⟩
  · have hilt : i < (rrEnqueue s).procs.length :=
      hbound1 i (by rw [hq1]; exact List.mem_cons_self _ _)
    have hinrest : i ∉ rest := by
      rw [hq1] at hnd1; exact (List.nodup_cons.1 hnd1).1
    have hrestnd : rest.Nodup := by
      rw [hq1] at hnd1; exact (List.nodup_cons.1 hnd1).2
    have hrestbound : ∀ j ∈ rest, j < (rrEnqueue s).procs.length := by
      intro j hj
      exact hbound1 j (by rw [hq1]; exact List.mem_cons_of_mem _ hj)
    by_cases hr : (procAt (rrEnqueue s).procs i).remaining_time -
        min q (procAt (rrEnqueue s).procs i).remaining_time = 0
    · have hq2 : (rrDispatch q (rrEnqueue s)).queue = rest ∧
          (rrDispatch q (rrEnqueue s)).procs.length =
            (rrEnqueue s).procs.length := by
        simp only [rrDispatch, hq1]
        rw [if_pos hr]
        exact ⟨rfl, List.length_set _ _ _⟩
      rw [hq2.1]
      refine ⟨hrestnd, ?_⟩
      intro j hj
      rw [hq2.2]
      exact hrestbound j hj
    · have hq2 : (rrDispatch q (rrEnqueue s)).queue = rest ++ [i] ∧
          (rrDispatch q (rrEnqueue s)).procs.length =
            (rrEnqueue s).procs.length := by
        simp only [rrDispatch, hq1]
        rw [if_neg hr]
        exact ⟨rfl, List.length_set _ _ _⟩
      rw [hq2.1]
      constructor
      · refine List.Nodup.append hrestnd (List.nodup_singleton i) ?_
        intro a ha hb
        rcases List.mem_singleton.1 hb with rfl
        exact hinrest ha
      · intro j hj
        rw [hq2.2]
        rcases List.mem_append.1 hj with hj | hj
        · exact hrestbound j hj
        · rcases List.mem_singleton.1 hj with rfl
          exact hilt

/-- While the loop condition holds (and the quantum is positive), every
round-robin iteration strictly decreases the measure. -/
theorem rrStep_measure_dec (q : ℤ) (s : RRState) (hq : 0 < q)
    (hnd : s.queue.Nodup) (hbound : ∀ i ∈ s.queue, i < s.procs.length)
    (hcond : rrCond s = true) : rrMeasure (rrStep q s) < rrMeasure s := by
  obtain ⟨hnd1, hbound1⟩ := rrEnqueue_light s hnd hbound
  obtain ⟨hw1, hz1⟩ := rrEnqueue_measure_eq s
  unfold rrStep
  rcases hq1 : (rrEnqueue s).queue with _ | ⟨i, rest⟩
  · -- queue empty after enqueue: an idle jump must happen
    have hsq : s.queue = [] := by
      have h : s.queue ++ _ = [] := hq1
      exact (List.append_eq_nil.1 h).1
    have hflag : rrIdleFlag s = 1 := by
      unfold rrIdleFlag
      rw [if_pos hq1]
    have hsome : ∃ p ∈ s.procs, 0 < p.remaining_time := by
      rw [rrCond, hsq] at hcond
      simp only [List.isEmpty_nil, Bool.not_true, Bool.false_or,
        List.any_eq_true, decide_eq_true_eq] at hcond
      exact hcond
    have hcand : ∀ p ∈ s.procs, 0 < p.remaining_time →
        s.time < p.arrival_time := by
      intro p hp hr
      by_contra hle
      push_neg at hle
      obtain ⟨j, hjlt, hjp⟩ := List.getElem_of_mem hp
      have hjq : j ∈ (rrEnqueue s).queue := by
        refine (mem_rrEnqueue s j).2 (Or.inr ⟨hjlt, ?_, ?_, ?_⟩)
        · rw [procAt, List.getD_eq_getElem _ _ hjlt, hjp]; exact hle
        · rw [procAt, List.getD_eq_getElem _ _ hjlt, hjp]; exact hr
        · rw [hsq]; exact List.not_mem_nil j
      rw [hq1] at hjq
      exact absurd hjq (List.not_mem_nil j)
    rcases hc : ((rrEnqueue s).procs.filter fun p =>
        decide ((rrEnqueue s).time < p.arrival_time) &&
          decide (0 < p.remaining_time)).map (fun p => p.arrival_time)
      with _ | ⟨a, tlc⟩
    · -- impossible: some pending process has a later arrival
      exfalso
      obtain ⟨p, hp, hr⟩ := hsome
      have hpf : p ∈ (rrEnqueue s).procs.filter fun p =>
          decide ((rrEnqueue s).time < p.arrival_time) &&
            decide (0 < p.remaining_time) := by
        rw [List.mem_filter]
        refine ⟨hp, ?_⟩
        simp only [Bool.and_eq_true, decide_eq_true_eq]
        exact ⟨hcand p hp hr, hr⟩
      have hmm : p.arrival_time ∈ (([] : List ℤ)) := by
        rw [← hc]
        exact List.mem_map_of_mem _ hpf
      exact absurd hmm (List.not_mem_nil _)
    · -- idle jump: the flag drops to 0
      have hstep : rrDispatch q (rrEnqueue s) =
          { rrEnqueue s with time := tlc.foldl min a } := by
        simp only [rrDispatch, hq1, hc]
      rw [hstep]
      have hattmem : tlc.foldl min a ∈ a :: tlc := by
        obtain ⟨-, hattain⟩ := foldl_min_spec tlc a
        rcases hattain with heq | hmem
        · rw [heq]; exact List.mem_cons_self _ _
        · exact List.mem_cons_of_mem _ hmem
      rw [← hc] at hattmem
      obtain ⟨p, hpf, hparr⟩ := List.mem_map.1 hattmem
      rw [List.mem_filter] at hpf
      obtain ⟨hpmem, hpcond⟩ := hpf
      simp only [Bool.and_eq_true, decide_eq_true_eq] at hpcond
      obtain ⟨j, hjlt, hjp⟩ := List.getElem_of_mem hpmem
      have hjlt2 : j < s.procs.length := hjlt
      have hjp2 : s.procs[j] = p := hjp
      have hflag' : rrIdleFlag { rrEnqueue s with time := tlc.foldl min a } = 0 := by
        have hjmem : j ∈ (rrEnqueue { rrEnqueue s with
            time := tlc.foldl min a }).queue := by
          refine (mem_rrEnqueue _ j).2 (Or.inr ⟨hjlt2, ?_, ?_, ?_⟩)
          · show (procAt s.procs j).arrival_time ≤ tlc.foldl min a
            rw [procAt, List.getD_eq_getElem _ _ hjlt2, hjp2, hparr]
          · show 0 < (procAt s.procs j).remaining_time
            rw [procAt, List.getD_eq_getElem _ _ hjlt2, hjp2]
            exact hpcond.2
          · intro hmem
            have hmem2 : j ∈ (rrEnqueue s).queue := hmem
            rw [hq1] at hmem2
            exact absurd hmem2 (List.not_mem_nil j)
        unfold rrIdleFlag
        rw [if_neg (List.ne_nil_of_mem hjmem)]
      have hwork : rrWork { rrEnqueue s with time := tlc.foldl min a } =
          rrWork s := hw1
      have hzomb : rrZombies { rrEnqueue s with time := tlc.foldl min a } =
          rrZombies s := by
        unfold rrZombies at hz1 ⊢
        exact hz1
      unfold rrMeasure
      rw [hwork, hzomb, hflag, hflag']
      omega
  · -- dispatch the queue head
    have hflag : rrIdleFlag s = 0 := by
      unfold rrIdleFlag
      rw [if_neg (by rw [hq1]; exact List.cons_ne_nil i rest)]
    have hilt : i < s.procs.length :=
      hbound1 i (by rw [hq1]; exact List.mem_cons_self _ _)
    have hinrest : i ∉ rest := by
      rw [hq1] at hnd1; exact (List.nodup_cons.1 hnd1).1
    have hzq : rrZombies s =
        (if 0 < (procAt s.procs i).remaining_time then (0 : ℤ) else 1) +
          ((rest.filter fun j =>
            decide ((procAt s.procs j).remaining_time ≤ 0)).length : ℤ) := by
      rw [← hz1]
      unfold rrZombies
      have hpe : (rrEnqueue s).procs = s.procs := rfl
      rw [hq1, List.filter_cons]
      simp only [hpe]
      by_cases hRpos : 0 < (procAt s.procs i).remaining_time
      · rw [if_neg (by simp only [decide_eq_true_eq]; show ¬ _ ≤ _; omega),
          if_pos hRpos]
        simp
      · rw [if_pos (by simp only [decide_eq_true_eq]; show _ ≤ _; omega),
          if_neg hRpos]
        simp only [List.length_cons]
        push_cast
        ring
    by_cases hr : (procAt (rrEnqueue s).procs i).remaining_time -
        min q (procAt (rrEnqueue s).procs i).remaining_time = 0
    · -- process finishes
      have hpq : (rrDispatch q (rrEnqueue s)).procs = s.procs.set i
          { procAt s.procs i with
              remaining_time := 0
              completion_time := some (s.time +
                min q (procAt s.procs i).remaining_time)
              turnaround_time := some (s.time +
                min q (procAt s.procs i).remaining_time -
                (procAt s.procs i).arrival_time)
              waiting_time := some (s.time +
                min q (procAt s.procs i).remaining_time -
                (procAt s.procs i).arrival_time -
                (procAt s.procs i).burst_time) } ∧
          (rrDispatch q (rrEnqueue s)).queue = rest := by
        simp only [rrDispatch, hq1]
        rw [if_pos hr]
        exact ⟨rfl, rfl⟩
      have hwork : rrWork (rrDispatch q (rrEnqueue s)) =
          rrWork s - max (procAt s.procs i).remaining_time 0 := by
        unfold rrWork
        rw [hpq.1, map_sum_set _ _ _ _ hilt]
        dsimp only
        omega
      have hzomb : rrZombies (rrDispatch q (rrEnqueue s)) =
          ((rest.filter fun j =>
            decide ((procAt s.procs j).remaining_time ≤ 0)).length : ℤ) := by
        unfold rrZombies
        rw [hpq.1, hpq.2]
        congr 2
        refine List.filter_congr ?_
        intro j hj
        rw [procAt_set_ne _ _ _ _ (fun h => hinrest (by rw [h]; exact hj))]
      have hfl := rrIdleFlag_bounds (rrDispatch q (rrEnqueue s))
      unfold rrMeasure
      rw [hwork, hzomb, hflag, hzq]
      by_cases hRpos : 0 < (procAt s.procs i).remaining_time
      · rw [if_pos hRpos]
        have hmax : max (procAt s.procs i).remaining_time 0 =
            (procAt s.procs i).remaining_time := max_eq_left (by omega)
        omega
      · rw [if_neg hRpos]
        have hmax : max (procAt s.procs i).remaining_time 0 = 0 :=
          max_eq_right (by omega)
        omega
    · -- process re-queued
      have hRpos : 0 < (procAt s.procs i).remaining_time := by
        by_contra hle
        push_neg at hle
        have hm : min q (procAt s.procs i).remaining_time =
            (procAt s.procs i).remaining_time := min_eq_right (by omega)
        refine hr ?_
        show (procAt s.procs i).remaining_time -
            min q (procAt s.procs i).remaining_time = 0
        rw [hm]
        ring
      have hepos : 0 < min q (procAt s.procs i).remaining_time :=
        lt_min hq hRpos
      have heler : min q (procAt s.procs i).remaining_time ≤
          (procAt s.procs i).remaining_time := min_le_right _ _
      have hpq : (rrDispatch q (rrEnqueue s)).procs = s.procs.set i
          { procAt s.procs i with
              remaining_time := (procAt s.procs i).remaining_time -
                min q (procAt s.procs i).remaining_time } ∧
          (rrDispatch q (rrEnqueue s)).queue = rest ++ [i] := by
        simp only [rrDispatch, hq1]
        rw [if_neg hr]
        exact ⟨rfl, rfl⟩
      have hwork : rrWork (rrDispatch q (rrEnqueue s)) =
          rrWork s - min q (procAt s.procs i).remaining_time := by
        unfold rrWork
        rw [hpq.1, map_sum_set _ _ _ _ hilt]
        dsimp only
        have h1 : max ((procAt s.procs i).remaining_time -
            min q (procAt s.procs i).remaining_time) 0 =
            (procAt s.procs i).remaining_time -
              min q (procAt s.procs i).remaining_time := max_eq_left (by omega)
        have h2 : max (procAt s.procs i).remaining_time 0 =
            (procAt s.procs i).remaining_time := max_eq_left (by omega)
        omega
      have hrne : (procAt s.procs i).remaining_time -
          min q (procAt s.procs i).remaining_time ≠ 0 := hr
      have hzomb : rrZombies (rrDispatch q (rrEnqueue s)) =
          ((rest.filter fun j =>
            decide ((procAt s.procs j).remaining_time ≤ 0)).length : ℤ) := by
        unfold rrZombies
        rw [hpq.1, hpq.2, List.filter_append]
        have hfi : ([i].filter fun j =>
            decide ((procAt (s.procs.set i
              { procAt s.procs i with
                  remaining_time := (procAt s.procs i).remaining_time -
                    min q (procAt s.procs i).remaining_time })
              j).remaining_time ≤ 0)) = [] := by
          rw [List.filter_cons]
          have hcnd : ¬ ((procAt (s.procs.set i
              { procAt s.procs i with
                  remaining_time := (procAt s.procs i).remaining_time -
                    min q (procAt s.procs i).remaining_time })
              i).remaining_time ≤ 0) := by
            rw [procAt_set_self _ _ _ hilt]
            dsimp only
            omega
          rw [if_neg (by simpa using hcnd)]
          rfl
        rw [hfi, List.append_nil]
        congr 2
        refine List.filter_congr ?_
        intro j hj
        rw [procAt_set_ne _ _ _ _ (fun h => hinrest (by rw [h]; exact hj))]
      have hfl := rrIdleFlag_bounds (rrDispatch q (rrEnqueue s))
      unfold rrMeasure
      rw [hwork, hzomb, hflag, hzq]
      rw [if_pos hRpos]
      omega

/-- With enough fuel (any amount above the measure) the round-robin loop
reaches its final state. -/
theorem rrLoop_terminates (q : ℤ) (hq : 0 < q) :
    ∀ (m : ℕ) (s : RRState), s.queue.Nodup →
      (∀ i ∈ s.queue, i < s.procs.length) →
      rrMeasure s < (m : ℤ) → ∃ s', rrLoop q m s = some s' := by
  intro m
  induction m with
  | zero =>
      intro s hnd hbound hm
      exfalso
      have h1 := rrWork_nonneg s
      have h2 := rrZombies_nonneg s
      have h3 := (rrIdleFlag_bounds s).1
      unfold rrMeasure at hm
      push_cast at hm
      omega
  | succ f ih =>
      intro s hnd hbound hm
      by_cases hc : rrCond s
      · have hdec := rrStep_measure_dec q s hq hnd hbound hc
        obtain ⟨hnd', hbound'⟩ := rrStep_light q s hnd hbound
        obtain ⟨s', hs'⟩ := ih (rrStep q s) hnd' hbound'
          (by push_cast at hm ⊢; omega)
        exact ⟨s', by simp only [rrLoop, hc, if_true]; exact hs'⟩
      · exact ⟨s, by simp [rrLoop, hc]⟩

/-- C8 (amended): `fcfsScheduling` (a structurally recursive pass) always
terminates; `sjfScheduling` and `priorityScheduling` terminate on every
input (each iteration either completes a process or is an idle jump
immediately followed by a completion); `roundRobinScheduling` terminates
on every input provided the quantum is positive — with a non-positive
quantum it loops forever on any process with positive burst time, because
`min(quantum, remaining_time)` no longer decreases the remaining work. -/
theorem scheduler_termination (ps : List Process) (q : ℤ) :
    (∃ r, fcfsScheduling ps = r) ∧
    SjfTerminates ps ∧ PriorityTerminates ps ∧ (0 < q → RRTerminates ps q) := by
  have hinit : schedInvariant (ps.map fun p => p.burst_time) (initSchedState ps) := by
    refine ⟨List.nodup_nil, by simp [initSchedState], rfl,
      by simp [initSchedState, sumDur], by simp [initSchedState]⟩
  refine ⟨⟨fcfsScheduling ps, rfl⟩, ?_, ?_, ?_⟩
  · obtain ⟨s', hs'⟩ := schedRun_terminates (fun p => p.burst_time) _
      ((schedMeasure (initSchedState ps)).toNat + 1) (initSchedState ps) hinit
      (by have := Int.self_le_toNat (schedMeasure (initSchedState ps))
          push_cast
          omega)
    refine ⟨(schedMeasure (initSchedState ps)).toNat + 1,
      ⟨s'.timeline, schedCompleted s', calculateStatistics (schedCompleted s')⟩, ?_⟩
    unfold sjfScheduling
    rw [hs']
    rfl
  · obtain ⟨s', hs'⟩ := schedRun_terminates (fun p => p.priority) _
      ((schedMeasure (initSchedState ps)).toNat + 1) (initSchedState ps) hinit
      (by have := Int.self_le_toNat (schedMeasure (initSchedState ps))
          push_cast
          omega)
    refine ⟨(schedMeasure (initSchedState ps)).toNat + 1,
      ⟨s'.timeline, schedCompleted s', calculateStatistics (schedCompleted s')⟩, ?_⟩
    unfold priorityScheduling
    rw [hs']
    rfl
  · intro hq
    have hnd : (rrInit ps).queue.Nodup := (List.nodup_range _).filter _
    have hbound : ∀ i ∈ (rrInit ps).queue, i < (rrInit ps).procs.length := by
      intro i hi
      have hr : i ∈ List.range (rrInit ps).procs.length :=
        List.mem_of_mem_filter hi
      exact List.mem_range.1 hr
    obtain ⟨s', hs'⟩ := rrLoop_terminates q hq
      ((rrMeasure (rrInit ps)).toNat + 1) (rrInit ps) hnd hbound
      (by have := Int.self_le_toNat (rrMeasure (rrInit ps))
          push_cast
          omega)
    refine ⟨(rrMeasure (rrInit ps)).toNat + 1,
      ⟨s'.timeline, s'.procs, calculateStatistics s'.procs⟩, ?_⟩
    unfold roundRobinScheduling
    rw [hs']
    rfl

/-- C8 (witness): concrete termination of the fueled loops. -/
theorem scheduler_termination_witness :
    SjfTerminates [⟨1, 0, 1, 1, 1, none, none, none⟩] ∧
      RRTerminates [⟨1, 0, 1, 1, 1, none, none, none⟩] 1 :=
  ⟨(scheduler_termination [⟨1, 0, 1, 1, 1, none, none, none⟩] 1).2.1,
    (scheduler_termination [⟨1, 0, 1, 1, 1, none, none, none⟩] 1).2.2.2
      (by decide)⟩

/-- With quantum 0 the round-robin loop never finishes on a single
process of burst 1: each iteration executes `min(0, 1) = 0` time units
and re-queues the process unchanged. -/
theorem rr_quantum_zero_diverges :
    ∀ (f : ℕ) (tl : List Segment),
      rrLoop 0 f ⟨[⟨1, 0, 1, 1, 1, none, none, none⟩], [0], 0, tl⟩ = none := by
  intro f
  induction f with
  | zero => intro tl; rfl
  | succ f ih =>
      intro tl
      have hcond : rrCond ⟨[⟨1, 0, 1, 1, 1, none, none, none⟩], [0], 0, tl⟩ =
          true := rfl
      have hstep : rrStep 0 ⟨[⟨1, 0, 1, 1, 1, none, none, none⟩], [0], 0, tl⟩ =
          ⟨[⟨1, 0, 1, 1, 1, none, none, none⟩], [0], 0,
            tl ++ [⟨1, 0, 0, 0⟩]⟩ := rfl
      have hunfold : rrLoop 0 (f + 1)
          ⟨[⟨1, 0, 1, 1, 1, none, none, none⟩], [0], 0, tl⟩ =
          rrLoop 0 f (rrStep 0
            ⟨[⟨1, 0, 1, 1, 1, none, none, none⟩], [0], 0, tl⟩) := by
        simp only [rrLoop, hcond, if_true]
      rw [hunfold, hstep]
      exact ih (tl ++ [⟨1, 0, 0, 0⟩])

/-- C8 (counterexample): the claim "each of the four CPU scheduling
functions terminates for every input" fails at roundRobinScheduling with
quantum 0 (an input simulateScheduling does not reject) on a single
process with burst time 1: no amount of fuel finishes the loop. -/
theorem rr_nontermination_counterexample :
    ¬ RRTerminates [⟨1, 0, 1, 1, 1, none, none, none⟩] 0 := by
  rintro ⟨fuel, r, hrun⟩
  unfold roundRobinScheduling at hrun
  have hinit : rrInit [⟨1, 0, 1, 1, 1, none, none, none⟩] =
      ⟨[⟨1, 0, 1, 1, 1, none, none, none⟩], [0], 0, []⟩ := rfl
  rw [hinit, rr_quantum_zero_diverges fuel []] at hrun
  simp at hrun
